import Mathlib

/-!
Shallow embedding of the detection-window / audio-coverage alignment core of
`src/juce_port/Source/SanctSoundClient.cpp`, together with theorems checking
the natural-language specification's claims against it.

Conventions:
* A UTC instant is its epoch value in milliseconds, as `Int` (the source stores
  `juce::Time`, an `int64` millisecond count).
* Cell and file-name text is `String`; character-level work happens on
  `String.data : List Char`.
* External library behaviour (JUCE `Time` constructors, `Time::fromISO8601`,
  `String::getDoubleValue`) is modelled explicitly below, at the points the
  source calls into it; each such model is marked in its doc comment.
* C++ `int64` overflow is modelled by an explicit wrap at `2^64`, and C++
  integer division (truncation towards zero) by `Int.tdiv`.
-/

namespace sanctsound

/-- One hour in milliseconds. -/
def hourMs : Int := 3600000

/-- Wrap an unbounded integer into the signed 64-bit range, modelling C++
`int64` overflow semantics (two's complement wraparound). -/
def wrap64 (n : Int) : Int := (n + 2 ^ 63) % 2 ^ 64 - 2 ^ 63

/-- ASCII digit test used throughout the source's character scanning
(`containsOnly "0123456789"`, `CharacterFunctions::isDigit`). -/
def charIsDigit (c : Char) : Bool := decide (48 ≤ c.toNat ∧ c.toNat ≤ 57)

/-- Whitespace as removed by `juce::String::trim`. -/
def charIsSpace (c : Char) : Bool := decide (c.toNat = 32 ∨ (9 ≤ c.toNat ∧ c.toNat ≤ 13))

/-- `juce::String::trim`: drop leading and trailing whitespace. -/
def trimChars (cs : List Char) : List Char :=
  ((cs.dropWhile charIsSpace).reverse.dropWhile charIsSpace).reverse

/-- Numeric value of a digit string (most significant first), as read by the
source's `getIntValue` / `getLargeIntValue` on digit-only substrings. -/
def digitsVal (cs : List Char) : Nat :=
  cs.foldl (fun n c => n * 10 + (c.toNat - 48)) 0

/-- `juce::String::getLargeIntValue` on a digit-only string: the numeric value,
wrapped into `int64` on overflow. -/
def getLargeIntValue (cs : List Char) : Int := wrap64 (digitsVal cs)

/-- Case-insensitive substring containment test, modelling
`juce::String::containsIgnoreCase`. -/
def lowerChars (cs : List Char) : List Char := cs.map Char.toLower

/-- Substring containment (`juce::String::contains`). -/
def containsSub (hay needle : List Char) : Bool :=
  hay.tails.any (fun t => needle.isPrefixOf t)

def containsIgnoreCaseSub (hay needle : List Char) : Bool :=
  containsSub (lowerChars hay) (lowerChars needle)

/-- Days since 1970-01-01 of the civil date `(y, m, d)` with `1 ≤ m ≤ 12`
(standard days-from-civil computation; used to model the external `timegm` /
JUCE UTC time construction the source delegates calendar arithmetic to). -/
def daysFromCivil (y m d : Int) : Int :=
  let y2 := if m ≤ 2 then y - 1 else y
  let era := Int.fdiv y2 400
  let yoe := y2 - era * 400
  let mp := (m + 9) % 12
  let doy := (153 * mp + 2) / 5 + d - 1
  let doe := yoe * 365 + yoe / 4 - yoe / 100 + doy
  era * 146097 + doe - 719468

/-- Epoch milliseconds of a UTC civil datetime, with `struct tm`-style
normalisation of an out-of-range month (as `timegm` performs); day/time
overflow is absorbed by the linear day/second arithmetic. -/
def civilMillis (y m d hh mm ss : Int) : Int :=
  let months := y * 12 + (m - 1)
  let yn := Int.fdiv months 12
  let mn := months % 12 + 1
  (daysFromCivil yn mn d * 86400 + hh * 3600 + mm * 60 + ss) * 1000

/-- Model of the external `juce::Time` component constructor with
`useLocalTime = false`. Its `month` parameter is 0-based (0 = January), so the
civil month is `month + 1`. -/
def juceTimeCtor (year month day hh mm ss ms : Int) : Int :=
  civilMillis year (month + 1) day hh mm ss + ms

/-- `makeUtc` (SanctSoundClient.cpp:120): `timegm` on 1-based month
components; a result of exactly `-1` seconds is mapped to instant 0. -/
def makeUtc (year mon day hh mm ss : Int) : Int :=
  let t := civilMillis year mon day hh mm ss / 1000
  if t = -1 then 0 else t * 1000

/-- Read exactly `n` digits, then skip one occurrence of the separator if it
follows; models JUCE's `parseFixedSizeIntAndSkip`. -/
def parseFixedInt (n : Nat) (sep : Option Char) (cs : List Char) :
    Option (Int × List Char) :=
  let digits := cs.take n
  if digits.length = n ∧ digits.all charIsDigit then
    let rest := cs.drop n
    let rest2 :=
      match sep with
      | some c => if rest.head? = some c then rest.tail else rest
      | none => rest
    some ((digitsVal digits : Int), rest2)
  else none

/-- Model of the external `juce::Time::fromISO8601`: fixed-size date fields
with optional dashes, an optional `T`-introduced time with optional colons and
an optional 3-digit fraction, then an optional `Z` or `±hh[:]mm` zone suffix.
Returns the instant, or the sentinel `0` on malformed input (JUCE returns
`Time()` there, which the call sites test against). -/
def fromISO8601 (cs : List Char) : Int :=
  match parseFixedInt 4 (some '-') cs with
  | none => 0
  | some (year, r1) =>
    match parseFixedInt 2 (some '-') r1 with
    | none => 0
    | some (month, r2) =>
      match parseFixedInt 2 none r2 with
      | none => 0
      | some (day, r3) =>
        let timePart : Option (Int × Int × Int × Int × List Char) :=
          if r3.head? = some 'T' then
            match parseFixedInt 2 (some ':') r3.tail with
            | none => none
            | some (hh, r4) =>
              match parseFixedInt 2 (some ':') r4 with
              | none => none
              | some (mm, r5) =>
                match parseFixedInt 2 none r5 with
                | none => none
                | some (ss, r6) =>
                  if r6.head? = some '.' ∨ r6.head? = some ',' then
                    match parseFixedInt 3 none r6.tail with
                    | none => none
                    | some (ms, r7) => some (hh, mm, ss, ms, r7)
                  else some (hh, mm, ss, 0, r6)
          else some (0, 0, 0, 0, r3)
        match timePart with
        | none => 0
        | some (hh, mm, ss, ms, r8) =>
          let zoneMs : Int :=
            match r8 with
            | '+' :: zr =>
              match parseFixedInt 2 (some ':') zr with
              | none => 0
              | some (zh, zr2) =>
                match parseFixedInt 2 none zr2 with
                | none => zh * 3600000
                | some (zm, _) => zh * 3600000 + zm * 60000
            | '-' :: zr =>
              match parseFixedInt 2 (some ':') zr with
              | none => 0
              | some (zh, zr2) =>
                match parseFixedInt 2 none zr2 with
                | none => -(zh * 3600000)
                | some (zm, _) => -(zh * 3600000 + zm * 60000)
            | _ => 0
          juceTimeCtor year (month - 1) day hh mm 0 0 + ss * 1000 + ms - zoneMs

/-- Model of `juce::String::getDoubleValue` restricted to the character set
the source feeds it (digits, `.`, `+`, `-`): parse an optional sign, integer
digits, and an optional fraction, stopping at the first character that cannot
extend the number (as `strtod` does); exponents never occur on these inputs.
The value is returned exactly, as a numerator over a positive power-of-ten
denominator. -/
def getDoubleValueParts (cs : List Char) : Int × Int :=
  let core := fun (ds : List Char) =>
    let ip := ds.takeWhile charIsDigit
    let rest := ds.drop ip.length
    let fp := if rest.head? = some '.' then rest.tail.takeWhile charIsDigit else []
    ((digitsVal ip * 10 ^ fp.length + digitsVal fp : Int), ((10 : Int) ^ fp.length))
  match cs with
  | '-' :: r => let p := core r; (-p.1, p.2)
  | '+' :: r => core r
  | _ => core cs

/-- `std::llround` of the exact value `n / d` (`d > 0`): round to nearest,
halves away from zero. -/
def llroundParts (n d : Int) : Int :=
  if 0 ≤ n then (2 * n + d) / (2 * d) else -((2 * -n + d) / (2 * d))

/-- Truncation towards zero of `(n / d) * 1000` milliseconds — the effect of
adding `juce::RelativeTime::seconds (n / d)` to a `juce::Time` (the `int64`
cast of the double millisecond count truncates). -/
def truncSecondsToMs (n d : Int) : Int := Int.tdiv (n * 1000) d

/-- `addCandidate` lambda of `parseTimeUTCImpl` (SanctSoundClient.cpp:496):
append the trimmed candidate if non-empty and not already present. -/
def addCandidate (l : List (List Char)) (c : List Char) : List (List Char) :=
  let v := trimChars c
  if v ≠ [] ∧ v ∉ l then l ++ [v] else l

/-- `addCompactCandidate` lambda of `parseTimeUTCImpl`
(SanctSoundClient.cpp:472): if the candidate's digits number at least 14,
add the ISO string rebuilt from those digits. -/
def addCompactCandidate (l : List (List Char)) (c : List Char) : List (List Char) :=
  let t := trimChars c
  if t = [] then l
  else
    let digits := t.filter charIsDigit
    if 14 ≤ digits.length then
      let iso := digits.take 4 ++ ['-'] ++ (digits.drop 4).take 2 ++ ['-'] ++
                 (digits.drop 6).take 2 ++ ['T'] ++ (digits.drop 8).take 2 ++ [':'] ++
                 (digits.drop 10).take 2 ++ [':'] ++ (digits.drop 12).take 2 ++
                 (if 14 < digits.length then '.' :: digits.drop 14 else []) ++ ['Z']
      if iso ∉ l then l ++ [iso] else l
    else l

/-- Replace every occurrence of one character (`juce::String::replaceCharacter`). -/
def replaceCharacter (cs : List Char) (a b : Char) : List Char :=
  cs.map (fun c => if c = a then b else c)

/-- The ISO candidate list built by `parseTimeUTCImpl` for non-numeric input
(SanctSoundClient.cpp:495-521): slash and space normalisations, `Z`-suffixed
copies of the first-pass candidates, then compact-digit rebuilds. -/
def isoCandidates (trimmed : List Char) : List (List Char) :=
  let canonical := replaceCharacter trimmed '/' '-'
  let l0 := addCandidate [] trimmed
  let l1 := addCandidate l0 canonical
  let l2 := if trimmed.contains ' ' then addCandidate l1 (replaceCharacter trimmed ' ' 'T') else l1
  let l3 := if canonical.contains ' ' then addCandidate l2 (replaceCharacter canonical ' ' 'T') else l2
  let l4 := l3.foldl
    (fun acc c =>
      if (lowerChars c).getLast? = some 'z' then acc else addCandidate acc (c ++ ['Z']))
    l3
  let l5 := addCompactCandidate l4 trimmed
  addCompactCandidate l5 canonical

/-- `parseTimeUTCImpl` (SanctSoundClient.cpp:419): tolerant cell-timestamp
parser. Digit-only input takes the compact/epoch branch; digits-with-dot input
is fractional epoch seconds; anything else runs through the ISO candidate list
(a candidate parsing to the `Time()` sentinel is accepted only if it mentions
1970-01-01). Returns `none` where the source returns `false`. -/
def parseTimeUTCImpl (text : String) : Option Int :=
  let trimmed := trimChars text.data
  if trimmed = [] then none
  else if trimmed.all charIsDigit then
    let yearCandidate := (digitsVal (trimmed.take 4) : Int)
    if 14 ≤ trimmed.length ∧ 1900 ≤ yearCandidate ∧ yearCandidate ≤ 2200 then
      let month := (digitsVal ((trimmed.drop 4).take 2) : Int)
      let day := (digitsVal ((trimmed.drop 6).take 2) : Int)
      let hour := (digitsVal ((trimmed.drop 8).take 2) : Int)
      let minute := (digitsVal ((trimmed.drop 10).take 2) : Int)
      let second := (digitsVal ((trimmed.drop 12).take 2) : Int)
      let base := juceTimeCtor yearCandidate month day hour minute second 0
      let fracDigits := trimmed.drop 14
      let fracMs :=
        if fracDigits = [] then 0
        else Int.tdiv (getLargeIntValue fracDigits * 1000) ((10 : Int) ^ fracDigits.length)
      some (base + fracMs)
    else
      let value := getLargeIntValue trimmed
      let treatAsMillis := 10 < trimmed.length ∨ 1000000000000 ≤ value
      some (if treatAsMillis then value else wrap64 (value * 1000))
  else if trimmed.all (fun c => charIsDigit c || c = '.') ∧ trimmed.contains '.' ∧
          ((getDoubleValueParts trimmed).1 ≠ 0 ∨ trimmed.head? = some '0' ∨
           trimmed.head? = some '.') then
    some (llroundParts ((getDoubleValueParts trimmed).1 * 1000) (getDoubleValueParts trimmed).2)
  else
    (isoCandidates trimmed).findSome? (fun candidate =>
      let parsed := fromISO8601 candidate
      if parsed = 0 ∧ ¬ containsIgnoreCaseSub candidate "1970-01-01".data then none
      else some parsed)

/-- `SanctSoundClient::parseTimeUTC` (SanctSoundClient.cpp:1138) forwards to
`parseTimeUTCImpl`. -/
def parseTimeUTC (text : String) : Option Int := parseTimeUTCImpl text

/-! ### Audio coverage index and the minimal-cover selector -/

/-- `SanctSoundClient::AudioHour` (SanctSoundClient.h:49): one coverage
interval `[startUtc, endUtc)` backed by one recording. -/
structure AudioHour where
  url : String
  fname : String
  folder : String
  startUtc : Int
  endUtc : Int
deriving Repr, DecidableEq

/-- Fallback element for safe indexing. -/
def AudioHour.dflt : AudioHour := ⟨"", "", "", 0, 0⟩

/-- `std::upper_bound` over the `starts` array (SanctSoundClient.cpp:1579):
on a range partitioned by `(· ≤ x)` — which the caller guarantees by passing a
start-sorted file array — it returns the position of the first start
exceeding `x`. -/
def upperBound (l : List Int) (x : Int) : Nat :=
  match l with
  | [] => 0
  | a :: r => if a ≤ x then upperBound r x + 1 else 0

/-- The `pick` lambda of `minimalFilesForWindows` (SanctSoundClient.cpp:1575):
predecessor index via upper-bound minus one; the predecessor alone if it covers
the window's end, else also the successor when one exists. -/
def pick (files : List AudioHour) (wstart wend : Int) : List Nat :=
  let starts := files.map (fun f => f.startUtc)
  let ub := upperBound starts wstart
  if ub = 0 then []
  else
    let index := ub - 1
    let first := files.getD index AudioHour.dflt
    if wend ≤ first.endUtc then [index]
    else if index + 1 < files.length then [index, index + 1]
    else [index]

/-- `SanctSoundClient::NeededFileRow` (SanctSoundClient.h:129): the per-window
mapping row; `names`/`urls` hold the picked identifiers (the source joins them
with `";"` into one string — kept as lists here). -/
structure NeededFileRow where
  winStart : Int
  winEnd : Int
  names : List String
  urls : List String
deriving Repr, DecidableEq

/-- `SanctSoundClient::minimalFilesForWindows` (SanctSoundClient.cpp:1554),
restricted to its computational outputs: the per-window rows and the unmatched
count. The source accumulates both in one pass over `windows`; an empty file
array or empty window list returns immediately with empty outputs. -/
def minimalFilesForWindows (files : List AudioHour) (windows : List (Int × Int)) :
    List NeededFileRow × Nat :=
  if files.isEmpty ∨ windows.isEmpty then ([], 0)
  else
    (windows.map (fun w =>
        let idxs := pick files w.1 w.2
        { winStart := w.1, winEnd := w.2
          names := idxs.map (fun i => (files.getD i AudioHour.dflt).fname)
          urls := idxs.map (fun i => (files.getD i AudioHour.dflt).url) }),
     windows.countP (fun w => (pick files w.1 w.2).isEmpty))

/-! ### Clip planner (`clipGroups` per-window decision logic) -/

/-- `LocalAudio` (SanctSoundClient.cpp:845) as used by the clip planner:
basename plus derived `[start, stop)` coverage. -/
structure LocalAudio where
  name : String
  start : Int
  stop : Int
deriving Repr, DecidableEq

/-- The `coverAndNext` lambda of `clipGroups` (SanctSoundClient.cpp:3354):
walk the local file list; `current` is the last entry with `start ≤ ts` seen
before the first entry with `start > ts`, which becomes `next`. -/
def coverAndNext (l : List LocalAudio) (ts : Int) :
    Option LocalAudio × Option LocalAudio :=
  match l with
  | [] => (none, none)
  | a :: rest =>
    if a.start ≤ ts then
      match coverAndNext rest ts with
      | (none, n) => (some a, n)
      | (some c, n) => (some c, n)
    else (none, some a)

/-- The disposition the per-window loop of `clipGroups`
(SanctSoundClient.cpp:3414-3516) reaches before any external tool runs.
Offsets and durations are in milliseconds (the source divides by 1000 into
double seconds when invoking the tool). -/
inductive ClipDecision where
  | missingSource
  | notSelected (src : String)
  | nonpositiveWindow
  | singleCut (src : String) (offsetMs durationMs : Int)
  | requiresNext (a b : String)
  | invalidSpan (a b : String)
  | dualCut (a b : String) (offsetMs partAMs partBMs : Int)
deriving Repr, DecidableEq

/-- The decision tree of the per-window loop of `clipGroups`
(SanctSoundClient.cpp:3424-3516). -/
def planWindow (localFiles : List LocalAudio) (selected : List String)
    (w : Int × Int) : ClipDecision :=
  match coverAndNext localFiles w.1 with
  | (none, _) => .missingSource
  | (some current, next?) =>
    let spansNext := current.stop < w.2
    if ¬ selected.contains current.name then .notSelected current.name
    else if w.2 - w.1 ≤ 0 then .nonpositiveWindow
    else if ¬ spansNext ∨ next?.isNone then
      .singleCut current.name (w.1 - current.start) (w.2 - w.1)
    else
      match next? with
      | none => .singleCut current.name (w.1 - current.start) (w.2 - w.1)
      | some next =>
        if ¬ selected.contains next.name then .requiresNext current.name next.name
        else
          let partA := current.stop - w.1
          let partB := w.2 - next.start
          if partA ≤ 0 ∨ partB ≤ 0 then .invalidSpan current.name next.name
          else .dualCut current.name next.name (w.1 - current.start) partA partB

/-- Outcome of the external `ffmpeg` cut/concat steps for one window, as the
manifest code observes it: either a non-empty error message, or a produced
file with an existence flag and byte size. The tool itself is an external
collaborator, so `clipGroupRows` is parameterised over these outcomes. -/
inductive ExecOutcome where
  | err (msg : String)
  | ok (exists2 : Bool) (size : Nat)
deriving Repr, DecidableEq

/-- `clipMinBytes` default (SanctSoundClient.h:161). -/
def clipMinBytes : Nat := 10000

/-- Final manifest status for one window given its plan and, for the cutting
plans, the external tool outcome (SanctSoundClient.cpp:3426-3545). -/
def statusOf (d : ClipDecision) (o : ExecOutcome) : String :=
  match d with
  | .missingSource => "missing_source"
  | .notSelected _ => "not_selected"
  | .nonpositiveWindow => "nonpositive_window"
  | .requiresNext _ _ => "requires_next"
  | .invalidSpan _ _ => "invalid_span"
  | .singleCut _ _ _ | .dualCut _ _ _ _ _ =>
    match o with
    | .err _ => "ffmpeg_error"
    | .ok ex size => if ¬ ex ∨ size < clipMinBytes then "too_small" else "written"

/-- `ClipRow` (PreviewModels): one manifest entry per window (the fields the
per-window loop always fills). -/
structure ClipRow where
  startMs : Int
  endMs : Int
  status : String
deriving Repr, DecidableEq

/-- The manifest built by the per-window loop of `clipGroups`
(SanctSoundClient.cpp:3414-3548) for one group: exactly one `ClipRow` is
appended per window on every control path; the external tool outcome for
window `i` is supplied by `oracle i`. -/
def clipGroupRows (localFiles : List LocalAudio) (selected : List String)
    (windows : List (Int × Int)) (oracle : Nat → ExecOutcome) : List ClipRow :=
  windows.enum.map (fun p =>
    { startMs := p.2.1, endMs := p.2.2
      status := statusOf (planWindow localFiles selected p.2) (oracle p.1) })

/-! ### CSV column inference -/

/-- `maxColumnCount` (SanctSoundClient.cpp:934). -/
def maxColumnCount (header : List String) (rows : List (List String)) : Nat :=
  rows.foldl (fun m row => max m row.length) header.length

/-- `countDatetimeHits` (SanctSoundClient.cpp:943): number of rows whose cell
in `column` exists and parses as a timestamp. -/
def countDatetimeHits (column : Nat) (rows : List (List String)) : Nat :=
  rows.countP (fun row =>
    decide (column < row.length) && (parseTimeUTCImpl (row.getD column "")).isSome)

/-- The scan loop of `detectDatetimeColumn`: first column index in
`[col, col + remaining)` whose hit count reaches `minHits`. -/
def detectColFrom (rows : List (List String)) (minHits : Nat) :
    Nat → Nat → Option Nat
  | _, 0 => none
  | col, remaining + 1 =>
    if minHits ≤ countDatetimeHits col rows then some col
    else detectColFrom rows minHits (col + 1) remaining

/-- `detectDatetimeColumn` (SanctSoundClient.cpp:957): returns the first
column from `startColumn` whose datetime-hit count reaches
`max(1, min(rowCount, max(3, ceil(rowCount * 0.05))))`. The double product
`rowCount * 0.05` rounds to a value whose ceiling equals `⌈rowCount/20⌉`
for every feasible row count, so the threshold is the exact rational ceiling. -/
def detectDatetimeColumn (header : List String) (rows : List (List String))
    (startColumn : Nat := 0) : Option Nat :=
  let maxCols := maxColumnCount header rows
  if rows.isEmpty then none
  else
    let rowCount := rows.length
    let minHits := max 1 (min rowCount (max 3 ((rowCount + 19) / 20)))
    detectColFrom rows minHits startColumn (maxCols - startColumn)

/-- `headerSuggestsPresence` (SanctSoundClient.cpp:983). -/
def headerSuggestsPresence (name : String) : Bool :=
  let lower := lowerChars name.data
  containsSub lower "present".data || containsSub lower "presence".data ||
  containsSub lower "detect".data || containsSub lower "call".data ||
  containsSub lower "heard".data || containsSub lower "flag".data

/-- `isNumeric` (SanctSoundClient.cpp:1186): non-empty after trimming and made
only of digits, `.`, `-`, `+`. -/
def isNumeric (text : String) : Bool :=
  let t := trimChars text.data
  ¬ t.isEmpty && t.all (fun c => charIsDigit c || c = '.' || c = '-' || c = '+')

/-- `parsePresenceFlag` (SanctSoundClient.cpp:990): numeric cell rounding to
0 or 1. -/
def parsePresenceFlag (text : String) : Option Nat :=
  let trimmed := trimChars text.data
  if trimmed = [] then none
  else if ¬ isNumeric text then none
  else
    let value := getDoubleValueParts trimmed
    let rounded := llroundParts value.1 value.2
    if rounded = 0 then some 0 else if rounded = 1 then some 1 else none

/-- The per-column counters of `detectPresenceColumn`
(SanctSoundClient.cpp:1016): a candidate column's statistics. -/
structure Candidate where
  column : Nat
  ones : Nat
  invalid : Nat
  valid : Nat
  headerHint : Bool
deriving Repr, DecidableEq

/-- Count `ones`/`valid`/`invalid` for one column
(SanctSoundClient.cpp:1036-1052): cells past the row end are skipped; a cell
that fails `parsePresenceFlag` counts as invalid only when non-empty. -/
def colStats (header : List String) (rows : List (List String)) (col : Nat) :
    Candidate :=
  let counts := rows.foldl
    (fun (acc : Nat × Nat × Nat) row =>
      if col < row.length then
        match parsePresenceFlag (row.getD col "") with
        | some flag => (acc.1 + (if flag = 1 then 1 else 0), acc.2.1 + 1, acc.2.2)
        | none =>
          if trimChars (row.getD col "").data ≠ [] then (acc.1, acc.2.1, acc.2.2 + 1)
          else acc
      else acc)
    (0, 0, 0)
  { column := col, ones := counts.1, valid := counts.2.1, invalid := counts.2.2
    headerHint := decide (col < header.length) && headerSuggestsPresence (header.getD col "") }

/-- The survival test of `detectPresenceColumn` (SanctSoundClient.cpp:1054-1058):
a column is kept as a candidate only with at least one valid row, at least one
1-valued row, and no more than `max(2, valid / 2)` invalid entries. -/
def candidateSurvives (c : Candidate) : Bool :=
  ¬ (c.valid = 0 || c.ones = 0) && ¬ (max 2 (c.valid / 2) < c.invalid)

/-- The `better` comparator of `detectPresenceColumn`
(SanctSoundClient.cpp:1067): `true` iff `rhs` strictly beats `lhs` on the
first differing key of (header hint, ones, fewer invalid, more valid); the
`lhs.column < 0` initial-sentinel case is modelled by the `Option` fold below. -/
def betterCandidate (lhs rhs : Candidate) : Bool :=
  if lhs.headerHint ≠ rhs.headerHint then rhs.headerHint && ¬ lhs.headerHint
  else if lhs.ones ≠ rhs.ones then lhs.ones < rhs.ones
  else if lhs.invalid ≠ rhs.invalid then rhs.invalid < lhs.invalid
  else lhs.valid < rhs.valid

/-- One iteration of the candidate scan of `detectPresenceColumn`
(SanctSoundClient.cpp:1027-1084): skip `skipCol` and non-surviving columns,
otherwise keep whichever of the incumbent and the new candidate `betterCandidate`
prefers. -/
def presenceStep (header : List String) (rows : List (List String))
    (skipCol : Nat) (best : Option Candidate) (col : Nat) : Option Candidate :=
  if col = skipCol then best
  else
    let c := colStats header rows col
    if ¬ candidateSurvives c then best
    else
      match best with
      | none => some c
      | some b => if betterCandidate b c then some c else some b

/-- `detectPresenceColumn` (SanctSoundClient.cpp:1008): scan all columns except
`skipCol`, keep the surviving candidates, and return the best column under
`betterCandidate` (first wins on full ties); `none` models the `-1` sentinel. -/
def detectPresenceColumn (header : List String) (rows : List (List String))
    (skipCol : Nat) : Option Nat :=
  if rows.isEmpty then none
  else
    ((List.range (maxColumnCount header rows)).foldl
      (presenceStep header rows skipCol) none).map (fun c => c.column)

/-! ### Coverage-index construction (`listAudioInFolder` / `listAudioAcross`) -/

/-- Lexicographic `≤` on character lists after per-character lowering, the
order induced by `juce::String::compareIgnoreCase ≤ 0`. -/
def charListLe : List Char → List Char → Bool
  | [], _ => true
  | _ :: _, [] => false
  | a :: as, b :: bs =>
    if a.toLower = b.toLower then charListLe as bs
    else decide (a.toLower < b.toLower)

/-- `AudioHourSorter::compareElements ≤ 0` (SanctSoundClient.cpp:1130): by
start millisecond, ties by case-insensitive folder comparison. -/
def audioHourLe (a b : AudioHour) : Bool :=
  if a.startUtc = b.startUtc then charListLe a.folder.data b.folder.data
  else decide (a.startUtc < b.startUtc)

/-- Case-insensitive string equality (`juce::String::equalsIgnoreCase`). -/
def eqIgnoreCase (a b : String) : Bool :=
  lowerChars a.data = lowerChars b.data

/-- The end-assignment pass of `listAudioInFolder`
(SanctSoundClient.cpp:1927-1938) over the start-sorted array: each interval
ends where the next same-folder interval starts — clamped to one second past
its own start when that gap is not positive — and otherwise (last entry, or
next entry from another folder) one hour after its start. -/
def assignEnds : List AudioHour → List AudioHour
  | [] => []
  | [a] => [{ a with endUtc := a.startUtc + 3600000 }]
  | a :: b :: rest =>
    let e :=
      if eqIgnoreCase b.folder a.folder then
        if a.startUtc < b.startUtc then b.startUtc else a.startUtc + 1000
      else a.startUtc + 3600000
    { a with endUtc := e } :: assignEnds (b :: rest)

/-- One parsed listing entry: file name (with its URL identified with the
name here) and the UTC start parsed from it. -/
structure ListingEntry where
  fname : String
  startUtc : Int
deriving Repr, DecidableEq

def ListingEntry.toHour (folderName : String) (e : ListingEntry) : AudioHour :=
  ⟨e.fname, e.fname, folderName, e.startUtc, e.startUtc + 3600000⟩

/-- One iteration of the filtering scan of `listAudioInFolder`
(SanctSoundClient.cpp:1844-1891) for a present lower bound `t`: an entry
starting before `t` is dropped but remembered as the left-boundary candidate
when its start beats the incumbent's (first seen wins ties); an entry past
`tmax` is dropped; the rest are kept in order with a provisional one-hour
end. -/
def filterStep (folderName : String) (t : Int) (tmax : Option Int)
    (acc : List AudioHour × Option AudioHour) (e : ListingEntry) :
    List AudioHour × Option AudioHour :=
  if e.startUtc < t then
    (acc.1,
     match acc.2 with
     | none => some (e.toHour folderName)
     | some l => if l.startUtc < e.startUtc then some (e.toHour folderName) else some l)
  else
    match tmax with
    | some tx => if tx < e.startUtc then acc else (acc.1 ++ [e.toHour folderName], acc.2)
    | none => (acc.1 ++ [e.toHour folderName], acc.2)

def filterScanGo (folderName : String) (t : Int) (tmax : Option Int) :
    List ListingEntry → List AudioHour × Option AudioHour →
    List AudioHour × Option AudioHour
  | [], acc => acc
  | e :: rest, acc => filterScanGo folderName t tmax rest (filterStep folderName t tmax acc e)

/-- The filtering scan of `listAudioInFolder` (SanctSoundClient.cpp:1844-1891)
over the already-parsed entries. With no lower bound the left-boundary slot is
never used and only the `tmax` cut applies. -/
def filterScan (folderName : String) (entries : List ListingEntry)
    (tmin tmax : Option Int) : List AudioHour × Option AudioHour :=
  match tmin with
  | some t => filterScanGo folderName t tmax entries ([], none)
  | none =>
    entries.foldl
      (fun (acc : List AudioHour × Option AudioHour) e =>
        match tmax with
        | some tx => if tx < e.startUtc then acc else (acc.1 ++ [e.toHour folderName], acc.2)
        | none => (acc.1 ++ [e.toHour folderName], acc.2))
      ([], none)

/-- `listAudioInFolder` (SanctSoundClient.cpp:1841-1938) restricted to its
pure core (listing retrieval, parse failures and logging stripped): filter the
parsed entries to the query range, re-admit the left-boundary candidate when it
starts at most six hours before `tmin`, sort by `(start, folder)`, and assign
interval ends. -/
def listAudioInFolderPure (folderName : String) (entries : List ListingEntry)
    (tmin tmax : Option Int) : List AudioHour :=
  let (keep, left) := filterScan folderName entries tmin tmax
  let withLeft :=
    match left with
    | none => keep
    | some l =>
      let include2 :=
        match tmin with
        | some t => decide (0 ≤ t - l.startUtc ∧ t - l.startUtc ≤ 21600000)
        | none => true
      if include2 then keep ++ [l] else keep
  assignEnds (withLeft.mergeSort audioHourLe)

/-- `listAudioAcross` (SanctSoundClient.cpp:1985-2033) restricted to its pure
core: build each folder's coverage and re-sort the concatenation globally by
`(start, folder)`. -/
def listAudioAcrossPure (folders : List (String × List ListingEntry))
    (tmin tmax : Option Int) : List AudioHour :=
  ((folders.map (fun p => listAudioInFolderPure p.1 p.2 tmin tmax)).flatten).mergeSort audioHourLe

/-! ### Event-window building (`parseEventsFromCsv`) -/

/-- `parseIsoOrPlainUTC` (SanctSoundClient.cpp:1360): ISO form when a `T` is
present (accepted only if nonzero), else `sscanf` date-time with `-` or `/`
separators, else bare date; the `makeUtc` result must be nonzero. The
`sscanf` scans are modelled on their matching inputs by splitting at the
separators and reading leading integers. -/
def scanInt (cs : List Char) : Option (Int × List Char) :=
  let cs2 := cs.dropWhile charIsSpace
  let (sign, cs3) : Int × List Char :=
    match cs2 with
    | '-' :: r => (-1, r)
    | '+' :: r => (1, r)
    | _ => (1, cs2)
  let digits := cs3.takeWhile charIsDigit
  if digits = [] then none
  else some (sign * digitsVal digits, cs3.drop digits.length)

/-- `sscanf(s, "%d<c1>%d<c2>%d %d:%d:%d")`-style scan of six integers. -/
def scanDateTime (sep : Char) (cs : List Char) : Option (Int × Int × Int × Int × Int × Int) :=
  match scanInt cs with
  | none => none
  | some (y, r1) =>
    match r1 with
    | c :: r1' =>
      if c ≠ sep then none else
      match scanInt r1' with
      | none => none
      | some (mo, r2) =>
        match r2 with
        | c2 :: r2' =>
          if c2 ≠ sep then none else
          match scanInt r2' with
          | none => none
          | some (d, r3) =>
            match scanInt r3 with
            | none => none
            | some (h, r4) =>
              match r4 with
              | ':' :: r4' =>
                match scanInt r4' with
                | none => none
                | some (mi, r5) =>
                  match r5 with
                  | ':' :: r5' =>
                    match scanInt r5' with
                    | none => none
                    | some (s, _) => some (y, mo, d, h, mi, s)
                  | _ => none
              | _ => none
        | [] => none
    | [] => none

/-- `sscanf(s, "%d-%d-%d")`-style scan of a bare date. -/
def scanDate (cs : List Char) : Option (Int × Int × Int) :=
  match scanInt cs with
  | none => none
  | some (y, r1) =>
    match r1 with
    | '-' :: r1' =>
      match scanInt r1' with
      | none => none
      | some (mo, r2) =>
        match r2 with
        | '-' :: r2' =>
          match scanInt r2' with
          | none => none
          | some (d, _) => some (y, mo, d)
        | _ => none
    | _ => none

def parseIsoOrPlainUTC (value : String) : Option Int :=
  let s := trimChars value.data
  if s = [] then none
  else
    let isoAttempt : Option Int :=
      if s.contains 'T' then
        let iso := fromISO8601 s
        if iso ≠ 0 then some iso else none
      else none
    match isoAttempt with
    | some v => some v
    | none =>
      let viaMake := fun (y mo d h mi sec : Int) =>
        let out := makeUtc y mo d h mi sec
        if out ≠ 0 then some out else none
      match scanDateTime '-' s with
      | some (y, mo, d, h, mi, sec) => viaMake y mo d h mi sec
      | none =>
        match scanDateTime '/' s with
        | some (y, mo, d, h, mi, sec) => viaMake y mo d h mi sec
        | none =>
          match scanDate s with
          | some (y, mo, d) => viaMake y mo d 0 0 0
          | none => none

/-- The `findColumn` lambda of `parseEventsFromCsv`
(SanctSoundClient.cpp:1416): first header column containing any of the keys,
case-insensitively. -/
def findEventColumn (columns : List String) (keys : List String) : Option Nat :=
  (columns.enum.find? (fun p =>
    keys.any (fun k => containsIgnoreCaseSub p.2.data k.data))).map (fun p => p.1)

/-- The duration-cell resolution of `parseEventsFromCsv`
(SanctSoundClient.cpp:1465-1491): positive numeric seconds, else `PTxxS`,
else `hh:mm:ss`, else the 60-second fallback. `fromFirstOccurrenceOf` /
`upToLastOccurrenceOf` are case-sensitive in the source and modelled so. -/
def splitAtSub (cs needle : List Char) : Option (List Char × List Char) :=
  match cs with
  | [] => if needle.isPrefixOf [] ∧ needle ≠ [] then none else
          if needle = [] then some ([], []) else none
  | c :: rest =>
    if needle.isPrefixOf cs then some ([], cs.drop needle.length)
    else
      match splitAtSub rest needle with
      | none => none
      | some (pre, post) => some (c :: pre, post)

def eventDurationSeconds (rawCell : String) : Int × Int :=
  let raw := trimChars rawCell.data
  let fallback : Int × Int := (60, 1)
  if raw = [] then fallback
  else
    let candidate := getDoubleValueParts raw
    if 0 < candidate.1 then candidate
    else if containsIgnoreCaseSub raw "PT".data ∧ (lowerChars raw).getLast? = some 's' then
      let inside :=
        match splitAtSub raw "PT".data with
        | some (_, post) =>
          match splitAtSub post.reverse "S".data with
          | some (_, preRev) => preRev.reverse
          | none => post
        | none => []
      let candidate2 := getDoubleValueParts inside
      if 0 < candidate2.1 then candidate2 else fallback
    else if raw.contains ':' then
      match scanInt raw with
      | some (hh, r1) =>
        match r1 with
        | ':' :: r1' =>
          match scanInt r1' with
          | some (mm, r2) =>
            match r2 with
            | ':' :: r2' =>
              match scanInt r2' with
              | some (ss, _) => (hh * 3600 + mm * 60 + ss, 1)
              | none => fallback
            | _ => fallback
          | none => fallback
        | _ => fallback
      | none => fallback
    else fallback

/-- One data row of `parseEventsFromCsv` (SanctSoundClient.cpp:1441-1500):
unreadable start means the row is skipped; the end cell is used when it
parses; otherwise the duration cell (or the 60 s fallback) extends the start;
finally any end at or before the start is coerced to `start + 60 s`. -/
def parseEventRow (startIdx : Nat) (endIdx durIdx : Option Nat)
    (row : List String) : Option (Int × Int) :=
  if row.length ≤ startIdx then none
  else
    match parseIsoOrPlainUTC (row.getD startIdx "") with
    | none => none
    | some startUTC =>
      let endParsed : Option Int :=
        match endIdx with
        | some ei => if ei < row.length then parseIsoOrPlainUTC (row.getD ei "") else none
        | none => none
      let endUTC :=
        match endParsed with
        | some v => v
        | none =>
          let seconds :=
            match durIdx with
            | some di =>
              if di < row.length then eventDurationSeconds (row.getD di "") else ((60 : Int), (1 : Int))
            | none => ((60 : Int), (1 : Int))
          startUTC + truncSecondsToMs seconds.1 seconds.2
      some (startUTC, if endUTC ≤ startUTC then startUTC + 60000 else endUTC)

/-- Lexicographic window order used to sort events
(SanctSoundClient.cpp:1505). -/
def eventLe (a b : Int × Int) : Bool :=
  if a.1 = b.1 then decide (a.2 ≤ b.2) else decide (a.1 < b.1)

/-- `std::unique` over the sorted event list (SanctSoundClient.cpp:1514):
drop adjacent exact `(start, end)` duplicates. -/
def dedupAdjacent : List (Int × Int) → List (Int × Int)
  | [] => []
  | [a] => [a]
  | a :: b :: rest =>
    if a = b then dedupAdjacent (b :: rest) else a :: dedupAdjacent (b :: rest)

/-- `parseEventsFromCsv` (SanctSoundClient.cpp:1395) over an already-read
table (file and stream handling stripped): locate the start/end/duration
columns among the trimmed non-empty header cells, build one window per
readable row, and return the sorted deduplicated list; `none` models every
`return false` path (missing file aside). -/
def parseEventsFromCsv (header : List String) (rows : List (List String)) :
    Option (List (Int × Int)) :=
  if header.isEmpty then none
  else
    let columns := (header.map (fun h => String.mk (trimChars h.data))).filter (fun c => c ≠ "")
    match findEventColumn columns ["start", "timestamp", "time", "utc"] with
    | none => none
    | some startIdx =>
      let endIdx := findEventColumn columns ["end"]
      let durIdx := findEventColumn columns ["duration", "dur", "length"]
      let events := rows.filterMap (parseEventRow startIdx endIdx durIdx)
      if events.isEmpty then none
      else some (dedupAdjacent (events.mergeSort eventLe))

/-! ### Presence-hour windows (`parsePresenceHoursFromCsv`, `previewGroup` HOUR mode) -/

/-- C++ `int64` division truncates towards zero. -/
def cTrunc (a b : Int) : Int := Int.tdiv a b

/-- `normaliseToHour` (SanctSoundClient.cpp:1089). -/
def normaliseToHour (t : Int) : Int := cTrunc t 3600000 * 3600000

/-- Insertion-order deduplication, the effect of the `std::set` guard in
`parsePresenceHoursFromCsv` (SanctSoundClient.cpp:1285-1304). -/
def dedupKeepFirst (l : List Int) : List Int :=
  l.foldl (fun acc x => if x ∈ acc then acc else acc ++ [x]) []

def intLe (a b : Int) : Bool := decide (a ≤ b)

/-- `parsePresenceHoursFromCsv` (SanctSoundClient.cpp:1271) over an
already-read table: detect the datetime and presence columns (`none` models
the thrown "could not detect ... column" errors), keep the hour-truncated
stamps of rows whose presence flag is 1, deduplicated and sorted ascending.
An empty header returns an empty list as in the source. -/
def parsePresenceHoursFromCsv (header : List String) (rows : List (List String)) :
    Option (List Int) :=
  if header.isEmpty then some []
  else
    match detectDatetimeColumn header rows 0 with
    | none => none
    | some timeCol =>
      match detectPresenceColumn header rows timeCol with
      | none => none
      | some presenceCol =>
        let hours := rows.filterMap (fun row =>
          if timeCol < row.length ∧ presenceCol < row.length then
            match parseTimeUTC (row.getD timeCol "") with
            | none => none
            | some stamp =>
              match parsePresenceFlag (row.getD presenceCol "") with
              | some 1 => some (normaliseToHour stamp)
              | _ => none
          else none)
        some ((dedupKeepFirst hours).mergeSort intLe)

/-- `groupConsecutive` (SanctSoundClient.cpp:1143): fold sorted points into
runs, a gap counting as consecutive when it is within one millisecond of the
step; each run is `[start, lastPoint + step)`. -/
def groupRun (stepMs : Int) (start prev : Int) : List Int → List (Int × Int)
  | [] => [(start, prev + stepMs)]
  | p :: ps =>
    if (p - prev - stepMs).natAbs ≤ 1 then groupRun stepMs start p ps
    else (start, prev + stepMs) :: groupRun stepMs p p ps

def groupConsecutive (points : List Int) (stepMs : Int) : List (Int × Int) :=
  match points with
  | [] => []
  | p :: ps => groupRun stepMs p p ps

/-- The `while (t < r.end)` loop of `expandRuns` (SanctSoundClient.cpp:1177),
with fuel covering every iteration the loop performs for a positive step (the
source would not terminate on a non-positive step, which no caller passes). -/
def expandFrom (stepMs : Int) : Nat → Int → Int → List Int
  | 0, _, _ => []
  | fuel + 1, t, endMs => if t < endMs then t :: expandFrom stepMs fuel (t + stepMs) endMs else []

/-- `expandRuns` (SanctSoundClient.cpp:1171): emit each run's points from its
start in `stepMs` strides while below its end. -/
def expandRuns (runs : List (Int × Int)) (stepMs : Int) : List Int :=
  runs.flatMap (fun r =>
    if 0 < stepMs then expandFrom stepMs ((r.2 - r.1).toNat / stepMs.toNat + 1) r.1 r.2
    else [])

/-- The HOUR branch of `previewGroup` (SanctSoundClient.cpp:2998-3041) for one
detection table: presence hours, consecutive-hour runs, the caller's
only-long-runs policy (`(end - start).inHours() ≥ 2.0`, i.e. at least two
hours), and expansion of the surviving runs into `[hour, hour + 1 h)`
windows. -/
def previewHourWindows (header : List String) (rows : List (List String))
    (onlyLongRuns : Bool) : Option (List (Int × Int)) :=
  match parsePresenceHoursFromCsv header rows with
  | none => none
  | some hours =>
    let runs := groupConsecutive hours 3600000
    let runsToUse := if onlyLongRuns then runs.filter (fun r => decide (7200000 ≤ r.2 - r.1)) else runs
    let expanded := expandRuns runsToUse 3600000
    some (expanded.map (fun h => (h, h + 3600000)))

/-! ## Helper lemmas -/

theorem getD_map_of_lt {α β : Type} (f : α → β) (l : List α) (j : Nat)
    (hj : j < l.length) (d : β) (d' : α) :
    (l.map f).getD j d = f (l.getD j d') := by
  induction l generalizing j with
  | nil => simp at hj
  | cons a t ih =>
    cases j with
    | zero => rfl
    | succ n =>
      simp only [List.map_cons, List.getD_cons_succ]
      exact ih n (by simpa using hj)

theorem getD_mem_of_lt {α : Type} (l : List α) (j : Nat) (d : α)
    (hj : j < l.length) : l.getD j d ∈ l := by
  induction l generalizing j with
  | nil => simp at hj
  | cons a t ih =>
    cases j with
    | zero => simp
    | succ n => exact List.mem_cons_of_mem a (ih n (by simpa using hj))

theorem upperBound_le_length (l : List Int) (x : Int) : upperBound l x ≤ l.length := by
  induction l with
  | nil => simp [upperBound]
  | cons a r ih =>
    by_cases h : a ≤ x <;> simp [upperBound, h] <;> omega

theorem upperBound_lt_imp (l : List Int) (x : Int) (j : Nat)
    (hj : j < upperBound l x) : l.getD j 0 ≤ x := by
  induction l generalizing j with
  | nil => simp [upperBound] at hj
  | cons a r ih =>
    by_cases h : a ≤ x
    · cases j with
      | zero => simpa using h
      | succ n =>
        simp only [List.getD_cons_succ]
        exact ih n (by simp [upperBound, h] at hj; omega)
    · simp [upperBound, h] at hj

theorem upperBound_ge_imp (l : List Int) (x : Int)
    (hs : l.Pairwise (fun a b => a ≤ b)) (j : Nat)
    (hj1 : upperBound l x ≤ j) (hj2 : j < l.length) : x < l.getD j 0 := by
  induction l generalizing j with
  | nil => simp at hj2
  | cons a r ih =>
    rcases List.pairwise_cons.mp hs with ⟨ha, hr⟩
    by_cases h : a ≤ x
    · cases j with
      | zero => simp [upperBound, h] at hj1
      | succ n =>
        simp only [List.getD_cons_succ]
        refine ih hr n ?_ (by simpa using hj2)
        simp [upperBound, h] at hj1; omega
    · cases j with
      | zero => simpa using (by omega : ¬ a ≤ x → x < a) h
      | succ n =>
        simp only [List.getD_cons_succ]
        have hmem : r.getD n 0 ∈ r := getD_mem_of_lt r n 0 (by simpa using hj2)
        have := ha _ hmem
        omega

theorem upperBound_eq_zero_of_head (a : Int) (r : List Int) (x : Int) (h : ¬ a ≤ x) :
    upperBound (a :: r) x = 0 := by
  simp [upperBound, h]

/-! ## C1: minimal-cover selector -/

/-- Closed form of the outputs of `minimalFilesForWindows` for a non-empty
file array. -/
theorem minimalFilesForWindows_eq (files : List AudioHour)
    (windows : List (Int × Int)) (hne : files ≠ []) :
    minimalFilesForWindows files windows =
      (windows.map (fun w =>
          let idxs := pick files w.1 w.2
          { winStart := w.1, winEnd := w.2
            names := idxs.map (fun i => (files.getD i AudioHour.dflt).fname)
            urls := idxs.map (fun i => (files.getD i AudioHour.dflt).url) }),
       windows.countP (fun w => (pick files w.1 w.2).isEmpty)) := by
  cases windows with
  | nil => simp [minimalFilesForWindows]
  | cons w ws =>
    have : ¬ (files.isEmpty ∨ ((w :: ws) : List (Int × Int)).isEmpty) := by
      simp [List.isEmpty_iff, hne]
    simp only [minimalFilesForWindows, this, if_false]

/-- Characterisation of the `pick` lambda on a start-sorted file array. -/
theorem pick_spec (files : List AudioHour) (wstart wend : Int)
    (hsorted : (files.map (fun f => f.startUtc)).Pairwise (fun a b => a ≤ b)) :
    (pick files wstart wend = [] ↔ ∀ f ∈ files, wstart < f.startUtc)
    ∧ (pick files wstart wend).length ≤ 2
    ∧ (∀ p rest, pick files wstart wend = p :: rest →
        p < files.length
        ∧ (files.getD p AudioHour.dflt).startUtc ≤ wstart
        ∧ (∀ j, j < files.length →
            (files.getD j AudioHour.dflt).startUtc ≤ wstart → j ≤ p)
        ∧ (∀ f ∈ files, f.startUtc ≤ wstart →
            f.startUtc ≤ (files.getD p AudioHour.dflt).startUtc)
        ∧ (wend ≤ (files.getD p AudioHour.dflt).endUtc →
            pick files wstart wend = [p])
        ∧ ((files.getD p AudioHour.dflt).endUtc < wend → p + 1 < files.length →
            pick files wstart wend = [p, p + 1])
        ∧ ((files.getD p AudioHour.dflt).endUtc < wend → ¬ p + 1 < files.length →
            pick files wstart wend = [p])) := by
  have hlen : (files.map (fun f => f.startUtc)).length = files.length := by simp
  have hget : ∀ j, j < files.length →
      (files.map (fun f => f.startUtc)).getD j 0 = (files.getD j AudioHour.dflt).startUtc := by
    intro j hj
    exact getD_map_of_lt (fun f => f.startUtc) files j hj 0 AudioHour.dflt
  by_cases hub : upperBound (files.map (fun f => f.startUtc)) wstart = 0
  · have hpick : pick files wstart wend = [] := by
      simp only [pick, hub]; rfl
    refine ⟨⟨fun _ => ?_, fun _ => hpick⟩, by simp [hpick], ?_⟩
    · intro f hf
      rcases List.mem_iff_getElem.mp hf with ⟨j, hj, rfl⟩
      have h1 := upperBound_ge_imp (files.map (fun f => f.startUtc)) wstart hsorted j
        (by omega) (by simpa using hj)
      rw [hget j hj] at h1
      have : files.getD j AudioHour.dflt = files[j] := List.getD_eq_getElem files AudioHour.dflt hj
      rwa [this] at h1
    · intro p rest hp
      rw [hpick] at hp
      exact absurd hp (by simp)
  · have hub1 : 1 ≤ upperBound (files.map (fun f => f.startUtc)) wstart := by omega
    have huble := upperBound_le_length (files.map (fun f => f.startUtc)) wstart
    set ub := upperBound (files.map (fun f => f.startUtc)) wstart with hubdef
    have hplt : ub - 1 < files.length := by omega
    have hstart_le : (files.getD (ub - 1) AudioHour.dflt).startUtc ≤ wstart := by
      have := upperBound_lt_imp (files.map (fun f => f.startUtc)) wstart (ub - 1) (by omega)
      rwa [hget _ hplt] at this
    have hmax : ∀ j, j < files.length →
        (files.getD j AudioHour.dflt).startUtc ≤ wstart → j ≤ ub - 1 := by
      intro j hj hle
      by_contra hgt
      have hge : ub ≤ j := by omega
      have := upperBound_ge_imp (files.map (fun f => f.startUtc)) wstart hsorted j hge
        (by omega)
      rw [hget j hj] at this
      omega
    have hvalmax : ∀ f ∈ files, f.startUtc ≤ wstart →
        f.startUtc ≤ (files.getD (ub - 1) AudioHour.dflt).startUtc := by
      intro f hf hle
      rcases List.mem_iff_getElem.mp hf with ⟨j, hj, rfl⟩
      have hjle : j ≤ ub - 1 := by
        refine hmax j hj ?_
        rwa [List.getD_eq_getElem files AudioHour.dflt hj]
      rcases Nat.lt_or_ge j (ub - 1) with hlt | hge
      · have := (List.pairwise_iff_getElem.mp hsorted) j (ub - 1) (by simpa using hj)
          (by simpa using hplt) hlt
        simp only [List.getElem_map] at this
        rw [List.getD_eq_getElem files AudioHour.dflt hplt]
        exact this
      · have hjeq : j = ub - 1 := by omega
        subst hjeq
        rw [List.getD_eq_getElem files AudioHour.dflt hj]
    have hnonempty : pick files wstart wend ≠ [] := by
      simp only [pick, hubdef.symm]
      split
      · omega
      · split
        · simp
        · split <;> simp
    have hhead : ∀ p rest, pick files wstart wend = p :: rest → p = ub - 1 := by
      intro p rest hp
      revert hp
      simp only [pick, hubdef.symm]
      split
      · omega
      · split
        · intro h; exact (List.cons.injEq _ _ _ _ ▸ h).1.symm
        · split
          · intro h; exact (List.cons.injEq _ _ _ _ ▸ h).1.symm
          · intro h; exact (List.cons.injEq _ _ _ _ ▸ h).1.symm
    refine ⟨⟨fun h => absurd h hnonempty, ?_⟩, ?_, ?_⟩
    · intro hall
      exfalso
      have hmem := getD_mem_of_lt files (ub - 1) AudioHour.dflt hplt
      exact absurd hstart_le (by simpa using hall _ hmem)
    · simp only [pick, hubdef.symm]
      split
      · simp
      · split
        · simp
        · split <;> simp
    · intro p rest hp
      have hpeq := hhead p rest hp
      subst hpeq
      refine ⟨hplt, hstart_le, hmax, hvalmax, ?_, ?_, ?_⟩
      · intro hcov
        simp only [pick, hubdef.symm]
        rw [if_neg hub, if_pos hcov]
      · intro hspan hsucc
        simp only [pick, hubdef.symm]
        rw [if_neg hub,
            if_neg (by omega : ¬ wend ≤ (files.getD (ub - 1) AudioHour.dflt).endUtc),
            if_pos hsucc]
      · intro hspan hsucc
        simp only [pick, hubdef.symm]
        rw [if_neg hub,
            if_neg (by omega : ¬ wend ≤ (files.getD (ub - 1) AudioHour.dflt).endUtc),
            if_neg hsucc]

/-- **C1 (amended).** For every NON-EMPTY coverage index sorted ascending by
start and every detection window list, `minimalFilesForWindows` records one row
per window; a window with no interval starting at or before it gets an empty
pick (hence a row with no sources) and is counted unmatched; otherwise the pick
starts at the predecessor — the interval with the greatest start at or below
the window start, found by upper-bound search — and: if the predecessor's end
reaches the window end the pick is exactly the predecessor; if not and a
successor at index+1 exists the pick is exactly predecessor then successor, in
index order; never more than two per window. (The original claim fails for an
empty index, which short-circuits without recording anything: see the
counterexample.) -/
theorem C1_minimal_cover_selection (files : List AudioHour)
    (windows : List (Int × Int)) (hne : files ≠ [])
    (hsorted : (files.map (fun f => f.startUtc)).Pairwise (fun a b => a ≤ b)) :
    (minimalFilesForWindows files windows).1.length = windows.length
    ∧ (minimalFilesForWindows files windows).2
        = windows.countP (fun w => (pick files w.1 w.2).isEmpty)
    ∧ (∀ i, i < windows.length →
        (minimalFilesForWindows files windows).1.getD i ⟨0, 0, [], []⟩ =
          { winStart := (windows.getD i (0, 0)).1
            winEnd := (windows.getD i (0, 0)).2
            names := (pick files (windows.getD i (0, 0)).1 (windows.getD i (0, 0)).2).map
              (fun j => (files.getD j AudioHour.dflt).fname)
            urls := (pick files (windows.getD i (0, 0)).1 (windows.getD i (0, 0)).2).map
              (fun j => (files.getD j AudioHour.dflt).url) })
    ∧ ∀ wstart wend : Int,
        (pick files wstart wend = [] ↔ ∀ f ∈ files, wstart < f.startUtc)
        ∧ (pick files wstart wend).length ≤ 2
        ∧ (∀ p rest, pick files wstart wend = p :: rest →
            p < files.length
            ∧ (files.getD p AudioHour.dflt).startUtc ≤ wstart
            ∧ (∀ j, j < files.length →
                (files.getD j AudioHour.dflt).startUtc ≤ wstart → j ≤ p)
            ∧ (∀ f ∈ files, f.startUtc ≤ wstart →
                f.startUtc ≤ (files.getD p AudioHour.dflt).startUtc)
            ∧ (wend ≤ (files.getD p AudioHour.dflt).endUtc →
                pick files wstart wend = [p])
            ∧ ((files.getD p AudioHour.dflt).endUtc < wend → p + 1 < files.length →
                pick files wstart wend = [p, p + 1])
            ∧ ((files.getD p AudioHour.dflt).endUtc < wend → ¬ p + 1 < files.length →
                pick files wstart wend = [p])) := by
  have heq := minimalFilesForWindows_eq files windows hne
  refine ⟨?_, ?_, ?_, fun wstart wend => pick_spec files wstart wend hsorted⟩
  · rw [heq]; simp
  · rw [heq]
  · intro i hi
    rw [heq]
    exact getD_map_of_lt _ windows i hi _ (0, 0)

/-- **C1 counterexample.** The claim as stated also covers the empty coverage
index (an empty array is sorted ascending), where a window has no predecessor
and should therefore be "recorded with no sources" with the unmatched count
"incremented"; but `minimalFilesForWindows` returns immediately on an empty
file array, recording no row and leaving the unmatched count at zero. -/
theorem C1_counterexample :
    (minimalFilesForWindows [] [((0 : Int), (1 : Int))]).1.length = 0
    ∧ (minimalFilesForWindows [] [((0 : Int), (1 : Int))]).2 = 0
    ∧ pick [] 0 1 = [] := by
  exact ⟨rfl, rfl, rfl⟩

/-- Concrete instantiation of `C1_minimal_cover_selection`: two contiguous
files; a window inside the first, a window spanning both, and a window before
all coverage. -/
theorem C1_witness :
    (minimalFilesForWindows
        [⟨"u1", "a.flac", "f", 0, 3600000⟩, ⟨"u2", "b.flac", "f", 3600000, 7200000⟩]
        [(1800000, 3000000), (1800000, 5400000), (-5, 10)]).1.length = 3
    ∧ (minimalFilesForWindows
        [⟨"u1", "a.flac", "f", 0, 3600000⟩, ⟨"u2", "b.flac", "f", 3600000, 7200000⟩]
        [(1800000, 3000000), (1800000, 5400000), (-5, 10)]).2 = 1 := by
  have h := C1_minimal_cover_selection
    [⟨"u1", "a.flac", "f", 0, 3600000⟩, ⟨"u2", "b.flac", "f", 3600000, 7200000⟩]
    [(1800000, 3000000), (1800000, 5400000), (-5, 10)]
    (by decide) (by decide)
  exact ⟨h.1.trans (by decide), h.2.1.trans (by decide)⟩

/-! ## C2: clip planner decision tree -/

/-- On a start-sorted local file list, `coverAndNext` returns the predecessor:
the file with the greatest start at or below the probe instant. -/
theorem coverAndNext_spec (l : List LocalAudio) (ts : Int)
    (hsorted : l.Pairwise (fun a b => a.start ≤ b.start)) :
    ((coverAndNext l ts).1 = none ↔ ∀ f ∈ l, ts < f.start)
    ∧ (∀ c, (coverAndNext l ts).1 = some c →
        c ∈ l ∧ c.start ≤ ts ∧ ∀ f ∈ l, f.start ≤ ts → f.start ≤ c.start) := by
  induction l with
  | nil => simp [coverAndNext]
  | cons a rest ih =>
    rcases List.pairwise_cons.mp hsorted with ⟨ha, hrest⟩
    rcases ih hrest with ⟨ihnone, ihsome⟩
    by_cases h : a.start ≤ ts
    · constructor
      · constructor
        · intro hn
          exfalso
          revert hn
          simp only [coverAndNext, if_pos h]
          rcases hrec : coverAndNext rest ts with ⟨c?, n?⟩
          cases c? <;> simp
        · intro hall
          exact absurd h (by simpa using (hall a (by simp)))
      · intro c hc
        revert hc
        simp only [coverAndNext, if_pos h]
        rcases hrec : coverAndNext rest ts with ⟨c?, n?⟩
        cases c? with
        | none =>
          intro hc
          simp only [Option.some.injEq] at hc
          subst hc
          refine ⟨by simp, h, ?_⟩
          intro f hf hfle
          rcases List.mem_cons.mp hf with rfl | hfr
          · exact le_refl _
          · exfalso
            have := (ihnone.mp (by rw [hrec])) f hfr
            omega
        | some c0 =>
          intro hc
          simp only [Option.some.injEq] at hc
          subst hc
          have hc0 := ihsome c0 (by rw [hrec])
          refine ⟨List.mem_cons_of_mem a hc0.1, hc0.2.1, ?_⟩
          intro f hf hfle
          rcases List.mem_cons.mp hf with rfl | hfr
          · exact ha c0 hc0.1
          · exact hc0.2.2 f hfr hfle
    · have hres : coverAndNext (a :: rest) ts = (none, some a) := by
        simp [coverAndNext, h]
      constructor
      · simp only [hres]
        constructor
        · intro _ f hf
          rcases List.mem_cons.mp hf with rfl | hfr
          · omega
          · have := ha f hfr
            omega
        · intro _; trivial
      · intro c hc
        rw [hres] at hc
        exact absurd hc (by simp)

/-- **C2 (amended).** Against a start-sorted local file set: the planner's
`current` is the predecessor (greatest start at or below the window start); no
predecessor yields `missing_source`; for a selected predecessor and a positive
window, a window that fits inside the predecessor (`predecessor.end >=
window.end`) yields exactly one cut of the predecessor with `offset =
window.start - predecessor.start` and `duration = window.end - window.start`
(milliseconds); a window that exceeds the predecessor when a successor exists
but is not user-selected is recorded `requires_next` with no clip; and — against
the original claim — a window that exceeds the predecessor with NO successor
present is also planned as that same single truncated cut of the predecessor,
not `requires_next`/`missing_source`. -/
theorem C2_clip_plan (localFiles : List LocalAudio) (selected : List String)
    (w : Int × Int)
    (hsorted : localFiles.Pairwise (fun a b => a.start ≤ b.start)) :
    ((coverAndNext localFiles w.1).1 = none →
      planWindow localFiles selected w = ClipDecision.missingSource)
    ∧ ∀ cur, (coverAndNext localFiles w.1).1 = some cur →
        (cur ∈ localFiles ∧ cur.start ≤ w.1
          ∧ (∀ f ∈ localFiles, f.start ≤ w.1 → f.start ≤ cur.start))
        ∧ (selected.contains cur.name = true → 0 < w.2 - w.1 →
            (w.2 ≤ cur.stop →
              planWindow localFiles selected w
                = ClipDecision.singleCut cur.name (w.1 - cur.start) (w.2 - w.1))
            ∧ (cur.stop < w.2 → (coverAndNext localFiles w.1).2 = none →
              planWindow localFiles selected w
                = ClipDecision.singleCut cur.name (w.1 - cur.start) (w.2 - w.1))
            ∧ (∀ nxt, cur.stop < w.2 → (coverAndNext localFiles w.1).2 = some nxt →
                selected.contains nxt.name = false →
                planWindow localFiles selected w
                  = ClipDecision.requiresNext cur.name nxt.name)) := by
  rcases hcn : coverAndNext localFiles w.1 with ⟨c?, n?⟩
  constructor
  · intro hnone
    simp only at hnone
    subst hnone
    simp [planWindow, hcn]
  · intro cur hcur
    simp only at hcur
    subst hcur
    have hspec := (coverAndNext_spec localFiles w.1 hsorted).2 cur (by rw [hcn])
    refine ⟨hspec, ?_⟩
    intro hsel hpos
    refine ⟨?_, ?_, ?_⟩
    · intro hfits
      have hmem : cur.name ∈ selected := by simpa using hsel
      simp [planWindow, hcn, hmem, (by omega : ¬ w.2 ≤ w.1), hfits]
      omega
    · intro hspan hnone
      simp only at hnone
      subst hnone
      have hmem : cur.name ∈ selected := by simpa using hsel
      simp [planWindow, hcn, hmem, (by omega : ¬ w.2 ≤ w.1)]
      omega
    · intro nxt hspan hnxt hnotsel
      simp only at hnxt
      subst hnxt
      have hmem : cur.name ∈ selected := by simpa using hsel
      have hnm : nxt.name ∉ selected := by simpa using hnotsel
      simp [planWindow, hcn, hmem, hnm]
      rw [if_neg (by omega : ¬ w.2 ≤ w.1), if_neg (by omega : ¬ w.2 ≤ cur.stop)]

/-- **C2 counterexample.** One local file `A` covering `[0, 3600000)`, selected;
window `[1800000, 7200000)` exceeds `A`'s end and no successor exists. The
claim requires status `requires_next`/`missing_source` and no clip; the code
plans a single truncated cut of `A` instead. -/
theorem C2_counterexample :
    planWindow [⟨"A", 0, 3600000⟩] ["A"] (1800000, 7200000)
      = ClipDecision.singleCut "A" 1800000 5400000
    ∧ planWindow [⟨"A", 0, 3600000⟩] ["A"] (1800000, 7200000)
        ≠ ClipDecision.missingSource
    ∧ (⟨"A", 0, 3600000⟩ : LocalAudio).stop < 7200000 := by
  exact ⟨rfl, by decide, by decide⟩

/-- Concrete instantiation of `C2_clip_plan`: files `A` and `B`, only `A`
selected, window spanning into unselected `B` is `requires_next`. -/
theorem C2_witness :
    planWindow [⟨"A", 0, 3600000⟩, ⟨"B", 3600000, 7200000⟩] ["A"] (1800000, 5400000)
      = ClipDecision.requiresNext "A" "B" := by
  have h := C2_clip_plan [⟨"A", 0, 3600000⟩, ⟨"B", 3600000, 7200000⟩] ["A"]
    (1800000, 5400000) (by decide)
  have hc := (h.2 ⟨"A", 0, 3600000⟩ (by decide)).2 (by decide) (by decide)
  exact hc.2.2 ⟨"B", 3600000, 7200000⟩ (by decide) (by decide) (by decide)

/-! ## C9: manifest completeness -/

/-- Every reachable disposition string. -/
theorem statusOf_mem (d : ClipDecision) (o : ExecOutcome) :
    statusOf d o ∈ ["written", "missing_source", "not_selected", "nonpositive_window",
                    "requires_next", "invalid_span", "ffmpeg_error", "too_small"] := by
  cases d <;> cases o <;> simp [statusOf] <;> split <;> simp <;> omega

/-- **C9.** For every local file set, selection, window list and external-tool
outcome, the per-window loop of `clipGroups` appends exactly one `ClipRow` per
window — row `i` carries window `i`'s bounds — and every row's status is one of
the eight dispositions (`written`, `missing_source`, `not_selected`,
`nonpositive_window`, `requires_next`, `invalid_span`, `ffmpeg_error`,
`too_small`): the manifest never omits a window. -/
theorem C9_manifest_complete (localFiles : List LocalAudio) (selected : List String)
    (windows : List (Int × Int)) (oracle : Nat → ExecOutcome) :
    (clipGroupRows localFiles selected windows oracle).length = windows.length
    ∧ (∀ i, i < windows.length →
        (clipGroupRows localFiles selected windows oracle).getD i ⟨0, 0, ""⟩ =
          { startMs := (windows.getD i (0, 0)).1
            endMs := (windows.getD i (0, 0)).2
            status := statusOf (planWindow localFiles selected (windows.getD i (0, 0)))
              (oracle i) })
    ∧ ∀ r ∈ clipGroupRows localFiles selected windows oracle,
        r.status ∈ ["written", "missing_source", "not_selected", "nonpositive_window",
                    "requires_next", "invalid_span", "ffmpeg_error", "too_small"] := by
  refine ⟨by simp [clipGroupRows], ?_, ?_⟩
  · intro i hi
    have hlen : i < windows.enum.length := by simpa using hi
    have h1 : (clipGroupRows localFiles selected windows oracle).getD i ⟨0, 0, ""⟩ =
        { startMs := (windows.enum.getD i (0, (0, 0))).2.1
          endMs := (windows.enum.getD i (0, (0, 0))).2.2
          status := statusOf
            (planWindow localFiles selected (windows.enum.getD i (0, (0, 0))).2)
            (oracle (windows.enum.getD i (0, (0, 0))).1) } := by
      exact getD_map_of_lt _ windows.enum i hlen _ (0, (0, 0))
    have h2 : windows.enum.getD i (0, (0, 0)) = (i, windows.getD i (0, 0)) := by
      rw [List.getD_eq_getElem windows.enum (0, (0, 0)) hlen,
          List.getD_eq_getElem windows (0, 0) hi]
      simp
    rw [h1, h2]
  · intro r hr
    rcases List.mem_map.mp hr with ⟨p, _, rfl⟩
    exact statusOf_mem _ _

/-- Concrete instantiation of `C9_manifest_complete`: three windows (one
written, one unmatched, one nonpositive) yield exactly three manifest rows. -/
theorem C9_witness :
    (clipGroupRows [⟨"A", 0, 3600000⟩] ["A"]
        [(1800000, 3000000), (-10, -5), (50, 40)]
        (fun _ => ExecOutcome.ok true 20000)).length = 3 := by
  have h := C9_manifest_complete [⟨"A", 0, 3600000⟩] ["A"]
    [(1800000, 3000000), (-10, -5), (50, 40)] (fun _ => ExecOutcome.ok true 20000)
  exact h.1.trans (by decide)

/-! ## C3: datetime-column inference -/

theorem detectColFrom_some_iff (rows : List (List String)) (minHits : Nat) :
    ∀ rem col c, (detectColFrom rows minHits col rem = some c ↔
      (col ≤ c ∧ c < col + rem ∧ minHits ≤ countDatetimeHits c rows
       ∧ ∀ j, col ≤ j → j < c → countDatetimeHits j rows < minHits)) := by
  intro rem
  induction rem with
  | zero =>
    intro col c
    simp only [detectColFrom]
    constructor
    · intro h; exact absurd h (by simp)
    · intro ⟨h1, h2, _⟩; omega
  | succ n ih =>
    intro col c
    simp only [detectColFrom]
    by_cases hhit : minHits ≤ countDatetimeHits col rows
    · rw [if_pos hhit]
      constructor
      · intro h
        simp only [Option.some.injEq] at h
        subst h
        exact ⟨le_refl _, by omega, hhit, fun j h1 h2 => by omega⟩
      · intro ⟨h1, _, _, h4⟩
        rcases Nat.eq_or_lt_of_le h1 with rfl | hlt
        · rfl
        · exact absurd hhit (by simpa using h4 col (le_refl _) hlt)
    · rw [if_neg hhit]
      rw [ih (col + 1) c]
      constructor
      · intro ⟨h1, h2, h3, h4⟩
        refine ⟨by omega, by omega, h3, ?_⟩
        intro j hj1 hj2
        rcases Nat.eq_or_lt_of_le hj1 with rfl | hlt
        · omega
        · exact h4 j hlt hj2
      · intro ⟨h1, h2, h3, h4⟩
        have hne : col ≠ c := by
          rintro rfl
          omega
        refine ⟨by omega, by omega, h3, fun j hj1 hj2 => h4 j (by omega) hj2⟩

/-- **C3 (amended).** Datetime-column inference returns the LOWEST-indexed
column (scanning from column 0 up to the widest row) whose count of
timestamp-parseable cells reaches `max(1, min(rowCount, max(3,
⌈rowCount/20⌉)))` — a fixed 1/20 (= 0.05) fraction in every mode, the
threshold additionally clamped to the row count — and `none` when no column
reaches it (or the table has no rows). It does NOT select the column with the
highest hit count, and no 0.10 hourly fraction exists in this code path
(`parsePresenceHoursFromCsv` calls the same function). -/
theorem C3_datetime_column (header : List String) (rows : List (List String)) :
    (rows = [] → detectDatetimeColumn header rows 0 = none)
    ∧ (rows ≠ [] → ∀ c,
        (detectDatetimeColumn header rows 0 = some c ↔
          (c < maxColumnCount header rows
           ∧ max 1 (min rows.length (max 3 ((rows.length + 19) / 20)))
               ≤ countDatetimeHits c rows
           ∧ ∀ j, j < c →
               countDatetimeHits j rows
                 < max 1 (min rows.length (max 3 ((rows.length + 19) / 20)))))) := by
  constructor
  · rintro rfl
    simp [detectDatetimeColumn]
  · intro hne c
    have hrows : ¬ rows.isEmpty := by simpa [List.isEmpty_iff] using hne
    have hunfold : detectDatetimeColumn header rows 0 =
        detectColFrom rows (max 1 (min rows.length (max 3 ((rows.length + 19) / 20))))
          0 (maxColumnCount header rows - 0) := by
      simp [detectDatetimeColumn, hrows]
    rw [hunfold, detectColFrom_some_iff rows _ (maxColumnCount header rows - 0) 0 c]
    constructor
    · intro ⟨_, h2, h3, h4⟩
      exact ⟨by omega, h3, fun j hj => h4 j (by omega) hj⟩
    · intro ⟨h1, h2, h3⟩
      exact ⟨by omega, by omega, h2, fun j _ hj => h3 j hj⟩

/-- **C3 counterexample.** (a) Five rows where column 0 has 3 parseable cells
and column 1 has 5 — both above the claim's `max(3, ⌈rowCount·minFraction⌉)`
threshold for either fraction — yet the code returns column 0, not the
highest-count column 1. (b) Two rows, both parseable in column 0: the claim's
threshold `max(3, ...) = 3` exceeds the row count so inference should return
nothing, but the code's row-count clamp accepts the column. -/
theorem C3_counterexample :
    detectDatetimeColumn ["a", "b"]
        [["1", "1"], ["1", "1"], ["1", "1"], ["x", "1"], ["x", "1"]] 0 = some 0
    ∧ countDatetimeHits 0 [["1", "1"], ["1", "1"], ["1", "1"], ["x", "1"], ["x", "1"]] = 3
    ∧ countDatetimeHits 1 [["1", "1"], ["1", "1"], ["1", "1"], ["x", "1"], ["x", "1"]] = 5
    ∧ detectDatetimeColumn ["a"] [["1"], ["1"]] 0 = some 0
    ∧ countDatetimeHits 0 [["1"], ["1"]] = 2 := by
  exact ⟨by decide, by decide, by decide, by decide, by decide⟩

/-- Concrete instantiation of `C3_datetime_column`. -/
theorem C3_witness :
    detectDatetimeColumn ["a", "b"] [["1"], ["1"], ["1"], ["1"]] 0 = some 0 := by
  have h := (C3_datetime_column ["a", "b"] [["1"], ["1"], ["1"], ["1"]]).2 (by decide) 0
  exact h.mpr ⟨by decide, by decide, fun j hj => absurd hj (Nat.not_lt_zero j)⟩

/-! ## C8: presence-column inference -/

theorem betterCandidate_irrefl (a : Candidate) : betterCandidate a a = false := by
  simp [betterCandidate]

theorem betterCandidate_iff (a b : Candidate) :
    betterCandidate a b = true ↔
      ((¬ a.headerHint ∧ b.headerHint)
        ∨ (a.headerHint = b.headerHint
           ∧ (a.ones < b.ones
              ∨ (a.ones = b.ones
                 ∧ (b.invalid < a.invalid
                    ∨ (a.invalid = b.invalid ∧ a.valid < b.valid)))))) := by
  unfold betterCandidate
  cases ha : a.headerHint <;> cases hb : b.headerHint <;>
    split_ifs <;> simp_all <;> omega

theorem betterCandidate_asymm (a b : Candidate) (h : betterCandidate a b = true) :
    betterCandidate b a = false := by
  rw [betterCandidate_iff] at h
  cases hab : betterCandidate b a
  · rfl
  · rw [betterCandidate_iff] at hab
    cases ha : a.headerHint <;> cases hb : b.headerHint <;> simp_all <;> omega

theorem betterCandidate_trans (a b c : Candidate)
    (h1 : betterCandidate a b = true) (h2 : betterCandidate b c = true) :
    betterCandidate a c = true := by
  rw [betterCandidate_iff] at h1 h2 ⊢
  cases ha : a.headerHint <;> cases hb : b.headerHint <;> cases hc : c.headerHint <;>
    simp_all <;> omega

theorem betterCandidate_negtrans (b c d : Candidate)
    (h1 : betterCandidate b c = true) (h2 : betterCandidate b d = false) :
    betterCandidate c d = false := by
  cases hcd : betterCandidate c d
  · rfl
  · have h3 := betterCandidate_trans b c d h1 hcd
    rw [h2] at h3
    exact h3.symm

/-- Invariant of the candidate-scan fold of `detectPresenceColumn`. -/
theorem presenceFold_spec (header : List String) (rows : List (List String))
    (skipCol : Nat) :
    ∀ (cols : List Nat) (acc : Option Candidate),
      ((cols.foldl (presenceStep header rows skipCol) acc = none ↔
        (acc = none ∧ ∀ c ∈ cols, c ≠ skipCol →
          candidateSurvives (colStats header rows c) = false)))
      ∧ (∀ r, cols.foldl (presenceStep header rows skipCol) acc = some r →
          ((acc = some r)
            ∨ (r.column ∈ cols ∧ r = colStats header rows r.column
               ∧ candidateSurvives r = true ∧ r.column ≠ skipCol))
          ∧ (∀ b, acc = some b → (r = b ∨ betterCandidate b r = true))
          ∧ (∀ c ∈ cols, c ≠ skipCol →
              candidateSurvives (colStats header rows c) = true →
              betterCandidate r (colStats header rows c) = false)) := by
  intro cols
  induction cols with
  | nil =>
    intro acc
    refine ⟨by simp, ?_⟩
    intro r hr
    simp only [List.foldl_nil] at hr
    exact ⟨Or.inl hr, fun b hb => Or.inl (by rw [hb] at hr; exact (Option.some.injEq _ _ ▸ hr).symm ▸ rfl), by simp⟩
  | cons col rest ih =>
    intro acc
    by_cases hskip : col = skipCol
    · have hstep : presenceStep header rows skipCol acc col = acc := by
        simp [presenceStep, hskip]
      constructor
      · rw [List.foldl_cons, hstep, (ih acc).1]
        constructor
        · intro ⟨h1, h2⟩
          exact ⟨h1, fun c hc hcs => by
            rcases List.mem_cons.mp hc with rfl | hcr
            · exact absurd hskip hcs
            · exact h2 c hcr hcs⟩
        · intro ⟨h1, h2⟩
          exact ⟨h1, fun c hc => h2 c (List.mem_cons_of_mem col hc)⟩
      · intro r hr
        rw [List.foldl_cons, hstep] at hr
        rcases (ih acc).2 r hr with ⟨hfirst, hdom, hmax⟩
        refine ⟨?_, hdom, ?_⟩
        · rcases hfirst with h | ⟨h1, h2, h3, h4⟩
          · exact Or.inl h
          · exact Or.inr ⟨List.mem_cons_of_mem col h1, h2, h3, h4⟩
        · intro c hc hcs hsv
          rcases List.mem_cons.mp hc with rfl | hcr
          · exact absurd hskip hcs
          · exact hmax c hcr hcs hsv
    · by_cases hsurv : candidateSurvives (colStats header rows col) = true
      · have hstep : presenceStep header rows skipCol acc col =
            (match acc with
             | none => some (colStats header rows col)
             | some b => if betterCandidate b (colStats header rows col)
                         then some (colStats header rows col) else some b) := by
          simp [presenceStep, hskip, hsurv]
        have hstep_some : ∀ b', presenceStep header rows skipCol acc col = some b' →
            (b' = colStats header rows col ∧
              (acc = none ∨ ∃ b, acc = some b ∧ betterCandidate b b' = true))
            ∨ (acc = some b' ∧
               betterCandidate b' (colStats header rows col) = false) := by
          intro b' hb'
          cases hacc : acc with
          | none =>
            rw [hacc] at hb'
            simp [presenceStep, hskip, hsurv] at hb'
            exact Or.inl ⟨hb'.symm, Or.inl rfl⟩
          | some b =>
            rw [hacc] at hb'
            by_cases hbet : betterCandidate b (colStats header rows col) = true
            · simp [presenceStep, hskip, hsurv, hbet] at hb'
              refine Or.inl ⟨hb'.symm, Or.inr ⟨b, rfl, ?_⟩⟩
              rw [← hb']
              exact hbet
            · simp [presenceStep, hskip, hsurv, hbet] at hb'
              subst hb'
              refine Or.inr ⟨rfl, by simpa using hbet⟩
        have hstep_ne : presenceStep header rows skipCol acc col ≠ none := by
          rw [hstep]
          cases acc with
          | none => simp
          | some b =>
            by_cases hbet : betterCandidate b (colStats header rows col) = true
            · simp [hbet]
            · simp [hbet]
        constructor
        · rw [List.foldl_cons, (ih _).1]
          constructor
          · intro ⟨h1, _⟩
            exact absurd h1 hstep_ne
          · intro ⟨_, h2⟩
            exact absurd hsurv (by simpa using h2 col (by simp) hskip)
        · intro r hr
          rw [List.foldl_cons] at hr
          rcases (ih _).2 r hr with ⟨hfirst, hdom, hmax⟩
          rcases hacc' : presenceStep header rows skipCol acc col with _ | b'
          · exact absurd hacc' hstep_ne
          · have hdom' := hdom b' hacc'
            rcases hstep_some b' hacc' with ⟨hb'eq, hprev⟩ | ⟨haccb', hnotbetter⟩
            · -- the new column was taken
              subst hb'eq
              have hcol_r : betterCandidate r (colStats header rows col) = false := by
                rcases hdom' with rfl | hbr
                · exact betterCandidate_irrefl _
                · exact betterCandidate_asymm _ _ hbr
              refine ⟨?_, ?_, ?_⟩
              · rcases hfirst with heq | ⟨h1, h2, h3, h4⟩
                · rw [hacc'] at heq
                  simp only [Option.some.injEq] at heq
                  subst heq
                  exact Or.inr ⟨List.mem_cons.mpr (Or.inl rfl), rfl, hsurv, hskip⟩
                · exact Or.inr ⟨List.mem_cons_of_mem col h1, h2, h3, h4⟩
              · intro b hb
                rcases hprev with hnone | ⟨b0, hb0, hbet⟩
                · rw [hb] at hnone; exact absurd hnone (by simp)
                · rw [hb] at hb0
                  simp only [Option.some.injEq] at hb0
                  subst hb0
                  rcases hdom' with rfl | hbr
                  · exact Or.inr hbet
                  · exact Or.inr (betterCandidate_trans _ _ _ hbet hbr)
              · intro c hc hcs hsv
                rcases List.mem_cons.mp hc with rfl | hcr
                · exact hcol_r
                · exact hmax c hcr hcs hsv
            · -- the incumbent was kept
              refine ⟨?_, ?_, ?_⟩
              · rcases hfirst with heq | ⟨h1, h2, h3, h4⟩
                · rw [hacc'] at heq
                  rw [← haccb'] at heq
                  exact Or.inl heq
                · exact Or.inr ⟨List.mem_cons_of_mem col h1, h2, h3, h4⟩
              · intro b hb
                rw [haccb'] at hb
                simp only [Option.some.injEq] at hb
                subst hb
                exact hdom'
              · intro c hc hcs hsv
                rcases List.mem_cons.mp hc with rfl | hcr
                · rcases hdom' with rfl | hbr
                  · exact hnotbetter
                  · exact betterCandidate_negtrans b' r (colStats header rows c)
                      hbr hnotbetter
                · exact hmax c hcr hcs hsv
      · have hstep : presenceStep header rows skipCol acc col = acc := by
          simp [presenceStep, hskip, hsurv]
        constructor
        · rw [List.foldl_cons, hstep, (ih acc).1]
          constructor
          · intro ⟨h1, h2⟩
            refine ⟨h1, fun c hc hcs => ?_⟩
            rcases List.mem_cons.mp hc with rfl | hcr
            · simpa using hsurv
            · exact h2 c hcr hcs
          · intro ⟨h1, h2⟩
            exact ⟨h1, fun c hc => h2 c (List.mem_cons_of_mem col hc)⟩
        · intro r hr
          rw [List.foldl_cons, hstep] at hr
          rcases (ih acc).2 r hr with ⟨hfirst, hdom, hmax⟩
          refine ⟨?_, hdom, ?_⟩
          · rcases hfirst with h | ⟨h1, h2, h3, h4⟩
            · exact Or.inl h
            · exact Or.inr ⟨List.mem_cons_of_mem col h1, h2, h3, h4⟩
          · intro c hc hcs hsv
            rcases List.mem_cons.mp hc with rfl | hcr
            · exact absurd hsv (by simpa using hsurv)
            · exact hmax c hcr hcs hsv

/-- **C8 (amended).** Presence-column inference rejects a candidate column iff
it has zero valid (numeric 0/1-rounding) rows, zero 1-valued rows, or MORE
THAN `max(2, valid/2)` invalid (non-numeric, non-empty) entries — so up to two
invalid entries are always tolerated, unlike the claim's `valid/2` bound — and
among surviving candidates the winner is maximal in the priority order
(header-text hint, most ones, fewest invalid, most valid), the lowest column
index winning full ties. -/
theorem C8_presence_column (header : List String) (rows : List (List String))
    (skipCol : Nat) :
    (∀ c : Candidate, candidateSurvives c = true ↔
      (c.valid ≠ 0 ∧ c.ones ≠ 0 ∧ c.invalid ≤ max 2 (c.valid / 2)))
    ∧ (∀ a b : Candidate, betterCandidate a b = true ↔
        ((¬ a.headerHint ∧ b.headerHint)
          ∨ (a.headerHint = b.headerHint
             ∧ (a.ones < b.ones
                ∨ (a.ones = b.ones
                   ∧ (b.invalid < a.invalid
                      ∨ (a.invalid = b.invalid ∧ a.valid < b.valid)))))))
    ∧ (detectPresenceColumn header rows skipCol = none ↔
        (rows = [] ∨ ∀ c, c < maxColumnCount header rows → c ≠ skipCol →
          candidateSurvives (colStats header rows c) = false))
    ∧ (∀ col, detectPresenceColumn header rows skipCol = some col →
        col < maxColumnCount header rows ∧ col ≠ skipCol
        ∧ candidateSurvives (colStats header rows col) = true
        ∧ ∀ c, c < maxColumnCount header rows → c ≠ skipCol →
            candidateSurvives (colStats header rows c) = true →
            betterCandidate (colStats header rows col) (colStats header rows c) = false) := by
  have hfold := presenceFold_spec header rows skipCol
    (List.range (maxColumnCount header rows)) none
  refine ⟨?_, betterCandidate_iff, ?_, ?_⟩
  · intro c
    simp only [candidateSurvives, Bool.and_eq_true, Bool.not_eq_true',
      Bool.or_eq_false_iff, Bool.or_eq_true, decide_eq_false_iff_not,
      decide_eq_true_eq, not_or]
    omega
  · by_cases hrows : rows = []
    · subst hrows
      simp [detectPresenceColumn]
    · have hne : ¬ rows.isEmpty := by simpa [List.isEmpty_iff] using hrows
      have hunfold : detectPresenceColumn header rows skipCol =
          ((List.range (maxColumnCount header rows)).foldl
            (presenceStep header rows skipCol) none).map (fun c => c.column) := by
        simp [detectPresenceColumn, hne]
      constructor
      · intro hnone
        rw [hunfold, Option.map_eq_none'] at hnone
        right
        intro c hc hcs
        exact (hfold.1.mp hnone).2 c (List.mem_range.mpr hc) hcs
      · intro h
        rcases h with h | h
        · exact absurd h hrows
        · have hfn : (List.range (maxColumnCount header rows)).foldl
              (presenceStep header rows skipCol) none = none := by
            exact hfold.1.mpr ⟨rfl, fun c hc hcs => h c (List.mem_range.mp hc) hcs⟩
          rw [hunfold, hfn]
          rfl
  · intro col hcol
    by_cases hrows : rows = []
    · subst hrows
      simp [detectPresenceColumn] at hcol
    · have hne : ¬ rows.isEmpty := by simpa [List.isEmpty_iff] using hrows
      have hunfold : detectPresenceColumn header rows skipCol =
          ((List.range (maxColumnCount header rows)).foldl
            (presenceStep header rows skipCol) none).map (fun c => c.column) := by
        simp [detectPresenceColumn, hne]
      rw [hunfold, Option.map_eq_some'] at hcol
      rcases hcol with ⟨r, hr, hrcol⟩
      rcases hfold.2 r hr with ⟨hfirst, _, hmax⟩
      rcases hfirst with h | ⟨h1, h2, h3, h4⟩
      · exact absurd h (by simp)
      · subst hrcol
        refine ⟨List.mem_range.mp h1, h4, by rwa [← h2], ?_⟩
        intro c hc hcs hsv
        rw [← h2]
        exact hmax c (List.mem_range.mpr hc) hcs hsv

/-- **C8 counterexample.** Column 1 of this table has 2 valid 1-valued rows and
2 invalid cells: the claim's rejection rule (`invalid > valid/2`, here
`2 > 1`) discards it, leaving no candidate, so inference should return
nothing; the code's actual bound `max(2, valid/2) = 2` keeps it and column 1
is returned. -/
theorem C8_counterexample :
    detectPresenceColumn ["t", "p"] [["x", "1"], ["x", "1"], ["x", "2"], ["x", "2"]] 0
      = some 1
    ∧ (colStats ["t", "p"] [["x", "1"], ["x", "1"], ["x", "2"], ["x", "2"]] 1).invalid = 2
    ∧ (colStats ["t", "p"] [["x", "1"], ["x", "1"], ["x", "2"], ["x", "2"]] 1).valid = 2
    ∧ (colStats ["t", "p"] [["x", "1"], ["x", "1"], ["x", "2"], ["x", "2"]] 1).valid / 2
        < (colStats ["t", "p"] [["x", "1"], ["x", "1"], ["x", "2"], ["x", "2"]] 1).invalid := by
  exact ⟨by decide, by decide, by decide, by decide⟩

/-- Concrete instantiation of `C8_presence_column`: the returned column
survives and beats the other surviving candidates. -/
theorem C8_witness :
    1 < maxColumnCount ["t", "flag"] [["x", "1"], ["x", "0"]]
    ∧ candidateSurvives (colStats ["t", "flag"] [["x", "1"], ["x", "0"]] 1) = true := by
  have h := (C8_presence_column ["t", "flag"] [["x", "1"], ["x", "0"]] 0).2.2.2 1 (by decide)
  exact ⟨h.1, h.2.2.1⟩

/-! ## C10: digit-only cells always parse -/

theorem digit_not_space (c : Char) (h : charIsDigit c = true) : charIsSpace c = false := by
  simp only [charIsDigit, decide_eq_true_eq] at h
  simp only [charIsSpace, decide_eq_false_iff_not]
  omega

theorem dropWhile_all_false {α : Type} (p : α → Bool) (l : List α)
    (h : ∀ a ∈ l, p a = false) : l.dropWhile p = l := by
  cases l with
  | nil => rfl
  | cons a t => simp [List.dropWhile_cons, h a (by simp)]

theorem trimChars_digits (cs : List Char) (h : cs.all charIsDigit = true) :
    trimChars cs = cs := by
  have hall : ∀ c ∈ cs, charIsSpace c = false := fun c hc =>
    digit_not_space c (List.all_eq_true.mp h c hc)
  unfold trimChars
  rw [dropWhile_all_false _ _ hall,
      dropWhile_all_false _ _ (fun c hc => hall c (List.mem_reverse.mp hc)),
      List.reverse_reverse]

/-- **C10.** Every non-empty digit-only cell parses: a string of 14 or more
digits whose leading four form a year in `[1900, 2200]` takes the compact
`YYYYMMDDhhmmss[.fraction]` branch (the month field feeding JUCE's 0-based
month constructor), and every other digit-only string — including `"0"` and
`"1"` — is read as an epoch value, milliseconds when longer than 10 digits or
at least `10^12` and otherwise seconds; consequently a whole column of binary
presence flags counts fully as datetime hits during column inference. -/
theorem C10_digit_cells (s : String)
    (h1 : s.data ≠ []) (h2 : s.data.all charIsDigit = true) :
    (parseTimeUTC s).isSome = true
    ∧ ((14 ≤ s.data.length ∧ 1900 ≤ (digitsVal (s.data.take 4) : Int)
        ∧ (digitsVal (s.data.take 4) : Int) ≤ 2200) →
        parseTimeUTC s = some
          (juceTimeCtor (digitsVal (s.data.take 4)) (digitsVal ((s.data.drop 4).take 2))
            (digitsVal ((s.data.drop 6).take 2)) (digitsVal ((s.data.drop 8).take 2))
            (digitsVal ((s.data.drop 10).take 2)) (digitsVal ((s.data.drop 12).take 2)) 0
           + (if s.data.drop 14 = [] then 0
              else Int.tdiv (getLargeIntValue (s.data.drop 14) * 1000)
                ((10 : Int) ^ (s.data.drop 14).length))))
    ∧ (¬ (14 ≤ s.data.length ∧ 1900 ≤ (digitsVal (s.data.take 4) : Int)
          ∧ (digitsVal (s.data.take 4) : Int) ≤ 2200) →
        parseTimeUTC s = some
          (if 10 < s.data.length ∨ 1000000000000 ≤ getLargeIntValue s.data
           then getLargeIntValue s.data
           else wrap64 (getLargeIntValue s.data * 1000)))
    ∧ ∀ (rows : List (List String)) (col : Nat),
        (∀ row ∈ rows, col < row.length ∧ (row.getD col "").data ≠ []
          ∧ (row.getD col "").data.all charIsDigit = true) →
        countDatetimeHits col rows = rows.length := by
  have hgen : ∀ t : String, t.data ≠ [] → t.data.all charIsDigit = true →
      ((14 ≤ t.data.length ∧ 1900 ≤ (digitsVal (t.data.take 4) : Int)
          ∧ (digitsVal (t.data.take 4) : Int) ≤ 2200) →
        parseTimeUTCImpl t = some
          (juceTimeCtor (digitsVal (t.data.take 4)) (digitsVal ((t.data.drop 4).take 2))
            (digitsVal ((t.data.drop 6).take 2)) (digitsVal ((t.data.drop 8).take 2))
            (digitsVal ((t.data.drop 10).take 2)) (digitsVal ((t.data.drop 12).take 2)) 0
           + (if t.data.drop 14 = [] then 0
              else Int.tdiv (getLargeIntValue (t.data.drop 14) * 1000)
                ((10 : Int) ^ (t.data.drop 14).length))))
      ∧ (¬ (14 ≤ t.data.length ∧ 1900 ≤ (digitsVal (t.data.take 4) : Int)
            ∧ (digitsVal (t.data.take 4) : Int) ≤ 2200) →
        parseTimeUTCImpl t = some
          (if 10 < t.data.length ∨ 1000000000000 ≤ getLargeIntValue t.data
           then getLargeIntValue t.data
           else wrap64 (getLargeIntValue t.data * 1000))) := by
    intro t ht1 ht2
    have htrim : trimChars t.data = t.data := trimChars_digits t.data ht2
    have hne : ¬ trimChars t.data = [] := by rw [htrim]; exact ht1
    have hdig : (trimChars t.data).all charIsDigit = true := by rw [htrim]; exact ht2
    constructor
    · intro hcompact
      unfold parseTimeUTCImpl
      rw [if_neg hne, if_pos hdig, htrim, if_pos hcompact]
    · intro hrest
      unfold parseTimeUTCImpl
      rw [if_neg hne, if_pos hdig, htrim, if_neg hrest]
  have hsome : ∀ t : String, t.data ≠ [] → t.data.all charIsDigit = true →
      (parseTimeUTCImpl t).isSome = true := by
    intro t ht1 ht2
    by_cases hcompact : (14 ≤ t.data.length ∧ 1900 ≤ (digitsVal (t.data.take 4) : Int)
        ∧ (digitsVal (t.data.take 4) : Int) ≤ 2200)
    · rw [(hgen t ht1 ht2).1 hcompact]; rfl
    · rw [(hgen t ht1 ht2).2 hcompact]; rfl
  refine ⟨hsome s h1 h2, (hgen s h1 h2).1, (hgen s h1 h2).2, ?_⟩
  intro rows col hrows
  apply List.countP_eq_length.mpr
  intro row hrow
  rcases hrows row hrow with ⟨hc1, hc2, hc3⟩
  simp only [Bool.and_eq_true, decide_eq_true_eq]
  exact ⟨hc1, hsome _ hc2 hc3⟩

/-- Concrete instantiation of `C10_digit_cells`: the flag cells `"0"` and
`"1"` parse as epoch seconds, and a two-row flag column scores two datetime
hits. -/
theorem C10_witness :
    parseTimeUTC "1" = some 1000 ∧ parseTimeUTC "0" = some 0
    ∧ countDatetimeHits 0 [["0"], ["1"]] = 2 := by
  have h1 := C10_digit_cells "1" (by decide) (by decide)
  have h0 := C10_digit_cells "0" (by decide) (by decide)
  refine ⟨(h1.2.2.1 (by decide)).trans (by decide),
          (h0.2.2.1 (by decide)).trans (by decide), ?_⟩
  exact (h1.2.2.2 [["0"], ["1"]] 0 (by decide)).trans (by decide)

/-! ## C4: coverage-index construction -/

theorem charListLe_total (x y : List Char) :
    charListLe x y = true ∨ charListLe y x = true := by
  induction x generalizing y with
  | nil => left; rfl
  | cons a as ih =>
    cases y with
    | nil => right; rfl
    | cons b bs =>
      by_cases hab : a.toLower = b.toLower
      · rcases ih bs with h | h
        · left; simp [charListLe, hab, h]
        · right; simp [charListLe, hab.symm, h]
      · rcases lt_trichotomy a.toLower b.toLower with hlt | heq | hgt
        · left
          simp only [charListLe]
          rw [if_neg hab]
          simp [hlt]
        · exact absurd heq hab
        · right
          simp only [charListLe]
          rw [if_neg (ne_of_lt hgt)]
          simp [hgt]

theorem charListLe_trans (x y z : List Char)
    (h1 : charListLe x y = true) (h2 : charListLe y z = true) :
    charListLe x z = true := by
  induction x generalizing y z with
  | nil => rfl
  | cons a as ih =>
    cases y with
    | nil => exact absurd h1 (by simp [charListLe])
    | cons b bs =>
      cases z with
      | nil => exact absurd h2 (by simp [charListLe])
      | cons c cs =>
        simp only [charListLe] at h1 h2 ⊢
        by_cases hab : a.toLower = b.toLower <;> by_cases hbc : b.toLower = c.toLower
        · rw [if_pos hab] at h1
          rw [if_pos hbc] at h2
          rw [if_pos (hab.trans hbc)]
          exact ih bs cs h1 h2
        · rw [if_pos hab] at h1
          rw [if_neg hbc] at h2
          rw [if_neg (by rw [hab]; exact hbc), hab]
          exact h2
        · rw [if_neg hab] at h1
          rw [if_pos hbc] at h2
          rw [if_neg (fun h => hab (h.trans hbc.symm)), ← hbc]
          exact h1
        · rw [if_neg hab] at h1
          rw [if_neg hbc] at h2
          have hab2 := of_decide_eq_true h1
          have hbc2 := of_decide_eq_true h2
          have hac := lt_trans hab2 hbc2
          rw [if_neg (ne_of_lt hac)]
          simp [hac]

theorem audioHourLe_iff (a b : AudioHour) :
    audioHourLe a b = true ↔
      (a.startUtc < b.startUtc
        ∨ (a.startUtc = b.startUtc ∧ charListLe a.folder.data b.folder.data = true)) := by
  unfold audioHourLe
  by_cases h : a.startUtc = b.startUtc <;> simp [h]

theorem audioHourLe_total (a b : AudioHour) :
    audioHourLe a b || audioHourLe b a := by
  rw [Bool.or_eq_true, audioHourLe_iff, audioHourLe_iff]
  rcases lt_trichotomy a.startUtc b.startUtc with h | h | h
  · left; left; exact h
  · rcases charListLe_total a.folder.data b.folder.data with hc | hc
    · left; right; exact ⟨h, hc⟩
    · right; right; exact ⟨h.symm, hc⟩
  · right; left; exact h

theorem audioHourLe_trans (a b c : AudioHour)
    (h1 : audioHourLe a b = true) (h2 : audioHourLe b c = true) :
    audioHourLe a c = true := by
  rw [audioHourLe_iff] at h1 h2 ⊢
  rcases h1 with h1 | ⟨h1e, h1c⟩ <;> rcases h2 with h2 | ⟨h2e, h2c⟩
  · left; omega
  · left; omega
  · left; omega
  · right; exact ⟨h1e.trans h2e, charListLe_trans _ _ _ h1c h2c⟩

/-- `List.mergeSort` leaves an already-sorted list unchanged (wrapper used to
evaluate the embedded sorts on concrete inputs). -/
theorem mergeSort_sorted_eq {α : Type} (le : α → α → Bool) (l : List α)
    (h : l.Pairwise (fun x y => le x y = true)) : l.mergeSort le = l :=
  List.mergeSort_of_sorted h

/-- Field preservation and end-assignment of `assignEnds`. -/
theorem assignEnds_spec (l : List AudioHour)
    (hfolder : ∀ a ∈ l, ∀ b ∈ l, eqIgnoreCase b.folder a.folder = true) :
    (assignEnds l).length = l.length
    ∧ (∀ i (d : AudioHour), i < l.length →
        ((assignEnds l).getD i d).startUtc = (l.getD i d).startUtc
        ∧ ((assignEnds l).getD i d).folder = (l.getD i d).folder
        ∧ ((assignEnds l).getD i d).fname = (l.getD i d).fname)
    ∧ (∀ i (d : AudioHour), i + 1 < l.length →
        ((assignEnds l).getD i d).endUtc =
          (if (l.getD i d).startUtc < (l.getD (i + 1) d).startUtc
           then (l.getD (i + 1) d).startUtc else (l.getD i d).startUtc + 1000))
    ∧ (l ≠ [] → ∀ d : AudioHour,
        ((assignEnds l).getD (l.length - 1) d).endUtc
          = (l.getD (l.length - 1) d).startUtc + 3600000) := by
  induction l with
  | nil => exact ⟨rfl, by simp, by simp, by simp⟩
  | cons a t ih =>
    cases t with
    | nil =>
      refine ⟨rfl, ?_, by simp, ?_⟩
      · intro i d hi
        cases i with
        | zero => exact ⟨rfl, rfl, rfl⟩
        | succ n =>
          simp only [List.length_cons, List.length_nil] at hi
          omega
      · intro _ d
        rfl
    | cons b rest =>
      have hfolder' : ∀ x ∈ b :: rest, ∀ y ∈ b :: rest, eqIgnoreCase y.folder x.folder = true :=
        fun x hx y hy => hfolder x (List.mem_cons_of_mem a hx) y (List.mem_cons_of_mem a hy)
      rcases ih hfolder' with ⟨ihlen, ihfields, ihadj, ihlast⟩
      have hfab : eqIgnoreCase b.folder a.folder = true :=
        hfolder a (by simp) b (by simp)
      have hunfold : assignEnds (a :: b :: rest) =
          { a with endUtc := if a.startUtc < b.startUtc then b.startUtc
                             else a.startUtc + 1000 } :: assignEnds (b :: rest) := by
        simp only [assignEnds, hfab, if_true, reduceIte]
      refine ⟨?_, ?_, ?_, ?_⟩
      · rw [hunfold]
        simpa using ihlen
      · intro i d hi
        rw [hunfold]
        cases i with
        | zero => exact ⟨rfl, rfl, rfl⟩
        | succ n =>
          simp only [List.getD_cons_succ]
          exact ihfields n d (by simpa using hi)
      · intro i d hi
        rw [hunfold]
        cases i with
        | zero => rfl
        | succ n =>
          simp only [List.getD_cons_succ]
          exact ihadj n d (by simpa using hi)
      · intro _ d
        rw [hunfold]
        have hlen : (a :: b :: rest : List AudioHour).length - 1 = (b :: rest : List AudioHour).length - 1 + 1 := by
          simp
        rw [hlen]
        simp only [List.getD_cons_succ]
        exact ihlast (by simp) d

/-- With no time bounds, the filtering scan keeps every entry in order. -/
theorem filterScan_none (f : String) (entries : List ListingEntry) :
    filterScan f entries none none = (entries.map (ListingEntry.toHour f), none) := by
  suffices h : ∀ acc : List AudioHour,
      entries.foldl
        (fun (acc : List AudioHour × Option AudioHour) e =>
          (acc.1 ++ [e.toHour f], acc.2))
        (acc, none) = (acc ++ entries.map (ListingEntry.toHour f), none) by
    have := h []
    simpa [filterScan] using this
  induction entries with
  | nil => intro acc; simp
  | cons e rest ih =>
    intro acc
    simp only [List.foldl_cons, List.map_cons]
    rw [ih (acc ++ [e.toHour f])]
    simp

/-- `listAudioInFolderPure` with no time bounds is end-assignment over the
start-sorted entries. -/
theorem listAudioInFolderPure_none (f : String) (entries : List ListingEntry) :
    listAudioInFolderPure f entries none none
      = assignEnds ((entries.map (ListingEntry.toHour f)).mergeSort audioHourLe) := by
  simp only [listAudioInFolderPure, filterScan_none]

/-- **C4 (amended).** The merged coverage index is globally sorted ascending
by `(start, folder)` — the order `audioHourLe`, start milliseconds with a
case-insensitive folder tie-break — regardless of input order; and within each
folder (sorted by start) each interval's end equals the next interval's start
WHEN the starts strictly increase, is clamped to `start + 1 s` when the next
same-folder start does not exceed it (equal-start duplicates therefore violate
`end[i] = start[i+1]`, see the counterexample), and `end[last] = start[last] +
1 hour`. -/
theorem C4_coverage_index (folders : List (String × List ListingEntry)) :
    (listAudioAcrossPure folders none none).Pairwise (fun a b => audioHourLe a b = true)
    ∧ (∀ a b : AudioHour, audioHourLe a b = true ↔
        (a.startUtc < b.startUtc ∨ (a.startUtc = b.startUtc
          ∧ charListLe a.folder.data b.folder.data = true)))
    ∧ ∀ (f : String) (entries : List ListingEntry) (idx : List AudioHour),
        idx = listAudioInFolderPure f entries none none →
        idx.Pairwise (fun a b => a.startUtc ≤ b.startUtc)
        ∧ (∀ a ∈ idx, a.folder = f)
        ∧ (∀ i, i + 1 < idx.length →
            ((idx.getD i AudioHour.dflt).startUtc
                < (idx.getD (i + 1) AudioHour.dflt).startUtc →
              (idx.getD i AudioHour.dflt).endUtc
                = (idx.getD (i + 1) AudioHour.dflt).startUtc)
            ∧ ((idx.getD (i + 1) AudioHour.dflt).startUtc
                ≤ (idx.getD i AudioHour.dflt).startUtc →
              (idx.getD i AudioHour.dflt).endUtc
                = (idx.getD i AudioHour.dflt).startUtc + 1000))
        ∧ (idx ≠ [] →
            (idx.getD (idx.length - 1) AudioHour.dflt).endUtc
              = (idx.getD (idx.length - 1) AudioHour.dflt).startUtc + 3600000) := by
  refine ⟨?_, audioHourLe_iff, ?_⟩
  · unfold listAudioAcrossPure
    exact @List.sorted_mergeSort AudioHour audioHourLe audioHourLe_trans audioHourLe_total _
  · intro f entries idx hidx
    have hl : idx = assignEnds ((entries.map (ListingEntry.toHour f)).mergeSort audioHourLe) :=
      hidx.trans (listAudioInFolderPure_none f entries)
    set l := (entries.map (ListingEntry.toHour f)).mergeSort audioHourLe with hldef
    have hmeml : ∀ a ∈ l, a.folder = f := by
      intro a ha
      rw [hldef] at ha
      rcases List.mem_map.mp (List.mem_mergeSort.mp ha) with ⟨e, _, rfl⟩
      rfl
    have hfolder : ∀ a ∈ l, ∀ b ∈ l, eqIgnoreCase b.folder a.folder = true := by
      intro a ha b hb
      rw [hmeml a ha, hmeml b hb]
      simp [eqIgnoreCase]
    rcases assignEnds_spec l hfolder with ⟨hlen, hfields, hadj, hlast⟩
    have hlsorted : l.Pairwise (fun a b => audioHourLe a b = true) := by
      rw [hldef]
      exact @List.sorted_mergeSort AudioHour audioHourLe audioHourLe_trans audioHourLe_total _
    have hlen' : idx.length = l.length := by rw [hl]; exact hlen
    have hstart : ∀ i, i < l.length →
        (idx.getD i AudioHour.dflt).startUtc = (l.getD i AudioHour.dflt).startUtc := by
      intro i hi
      rw [hl]
      exact (hfields i AudioHour.dflt hi).1
    refine ⟨?_, ?_, ?_, ?_⟩
    · rw [List.pairwise_iff_getElem]
      intro i j hi hj hij
      have hle := (List.pairwise_iff_getElem.mp hlsorted) i j (by omega) (by omega) hij
      rw [audioHourLe_iff] at hle
      have hgi : idx[i].startUtc = l[i].startUtc := by
        rw [← List.getD_eq_getElem idx AudioHour.dflt hi,
            ← List.getD_eq_getElem l AudioHour.dflt (by omega : i < l.length)]
        exact hstart i (by omega)
      have hgj : idx[j].startUtc = l[j].startUtc := by
        rw [← List.getD_eq_getElem idx AudioHour.dflt hj,
            ← List.getD_eq_getElem l AudioHour.dflt (by omega : j < l.length)]
        exact hstart j (by omega)
      rw [hgi, hgj]
      rcases hle with h | ⟨h, _⟩ <;> omega
    · intro a ha
      rw [hl] at ha
      rcases List.mem_iff_getElem.mp ha with ⟨i, hi, rfl⟩
      have hi' : i < l.length := by
        have := hlen
        omega
      have := (hfields i AudioHour.dflt hi').2.1
      rw [List.getD_eq_getElem _ AudioHour.dflt hi] at this
      rw [this]
      exact hmeml _ (getD_mem_of_lt l i AudioHour.dflt hi')
    · intro i hi
      have hi2 : i + 1 < l.length := by omega
      have hadj2 := hadj i AudioHour.dflt hi2
      have hendi : (idx.getD i AudioHour.dflt).endUtc
          = ((assignEnds l).getD i AudioHour.dflt).endUtc := by rw [hl]
      constructor
      · intro hlt
        rw [hstart i (by omega), hstart (i + 1) (by omega)] at hlt
        rw [hendi, hadj2, if_pos hlt, ← hstart (i + 1) (by omega)]
      · intro hge
        rw [hstart i (by omega), hstart (i + 1) (by omega)] at hge
        rw [hendi, hadj2, if_neg (by omega), ← hstart i (by omega)]
    · intro hne2
      have hlne : l ≠ [] := by
        intro h0
        rw [hl, h0] at hne2
        exact hne2 rfl
      have hlast2 := hlast hlne AudioHour.dflt
      have hpos : 0 < l.length := List.length_pos.mpr hlne
      rw [hlen', hl, hlast2, (hfields (l.length - 1) AudioHour.dflt (by omega)).1]

/-- **C4 counterexample.** Two recordings of the same folder with the same
parsed start: after the 1-second clamp the first interval ends at `1000` while
the second starts at `0`, so adjacent same-folder intervals do not satisfy
`interval[i].end = interval[i+1].start`. -/
theorem C4_counterexample :
    listAudioAcrossPure [("a", [⟨"f1", 0⟩, ⟨"f2", 0⟩])] none none
      = [⟨"f1", "f1", "a", 0, 1000⟩, ⟨"f2", "f2", "a", 0, 3600000⟩]
    ∧ (⟨"f1", "f1", "a", 0, 1000⟩ : AudioHour).endUtc
        ≠ (⟨"f2", "f2", "a", 0, 3600000⟩ : AudioHour).startUtc
    ∧ (⟨"f1", "f1", "a", 0, 1000⟩ : AudioHour).folder
        = (⟨"f2", "f2", "a", 0, 3600000⟩ : AudioHour).folder := by
  refine ⟨?_, by decide, rfl⟩
  have hinner : listAudioInFolderPure "a" [⟨"f1", 0⟩, ⟨"f2", 0⟩] none none
      = [⟨"f1", "f1", "a", 0, 1000⟩, ⟨"f2", "f2", "a", 0, 3600000⟩] := by
    rw [listAudioInFolderPure_none]
    rw [show ([⟨"f1", 0⟩, ⟨"f2", 0⟩] : List ListingEntry).map (ListingEntry.toHour "a")
        = [⟨"f1", "f1", "a", 0, 3600000⟩, ⟨"f2", "f2", "a", 0, 3600000⟩] from rfl]
    rw [mergeSort_sorted_eq audioHourLe _ (by decide)]
    rfl
  unfold listAudioAcrossPure
  simp only [List.map_cons, List.map_nil, hinner]
  rw [show ([[⟨"f1", "f1", "a", 0, 1000⟩, ⟨"f2", "f2", "a", 0, 3600000⟩]] :
      List (List AudioHour)).flatten
      = [⟨"f1", "f1", "a", 0, 1000⟩, ⟨"f2", "f2", "a", 0, 3600000⟩] from rfl]
  rw [mergeSort_sorted_eq audioHourLe _ (by decide)]

/-- Concrete instantiation of `C4_coverage_index`: contiguous same-folder
intervals share end/start, and the last interval gets the one-hour fallback. -/
theorem C4_witness :
    ((listAudioInFolderPure "a" [⟨"y", 0⟩, ⟨"z", 3600000⟩] none none).getD 0
        AudioHour.dflt).endUtc
      = ((listAudioInFolderPure "a" [⟨"y", 0⟩, ⟨"z", 3600000⟩] none none).getD 1
        AudioHour.dflt).startUtc := by
  have h := (C4_coverage_index [("a", [⟨"y", 0⟩, ⟨"z", 3600000⟩])]).2.2
    "a" [⟨"y", 0⟩, ⟨"z", 3600000⟩] (listAudioInFolderPure "a" [⟨"y", 0⟩, ⟨"z", 3600000⟩] none none) rfl
  have hidx : listAudioInFolderPure "a" [⟨"y", 0⟩, ⟨"z", 3600000⟩] none none
      = [⟨"y", "y", "a", 0, 3600000⟩, ⟨"z", "z", "a", 3600000, 7200000⟩] := by
    rw [listAudioInFolderPure_none]
    rw [show ([⟨"y", 0⟩, ⟨"z", 3600000⟩] : List ListingEntry).map (ListingEntry.toHour "a")
        = [⟨"y", "y", "a", 0, 3600000⟩, ⟨"z", "z", "a", 3600000, 7200000⟩] from rfl]
    rw [mergeSort_sorted_eq audioHourLe _ (by decide)]
    rfl
  refine ((h.2.2.1 0 (by rw [hidx]; decide)).1 ?_)
  rw [hidx]
  decide

/-! ## C5: left-boundary rule -/

theorem assignEnds_map_start (l : List AudioHour) :
    (assignEnds l).map (fun a => a.startUtc) = l.map (fun a => a.startUtc) := by
  induction l with
  | nil => rfl
  | cons a t ih =>
    cases t with
    | nil => rfl
    | cons b rest =>
      simp only [assignEnds, List.map_cons]
      rw [ih]
      rw [List.map_cons]

/-- Invariant of the filtering scan for a present lower bound `t`: kept
entries are the in-range ones, and the `left` slot tracks a maximal-start
pre-`t` entry. -/
theorem filterScan_some_inv (f : String) (t : Int) (tmax : Option Int) :
    ∀ (entries : List ListingEntry) (acc : List AudioHour × Option AudioHour),
      (∀ a ∈ (filterScanGo f t tmax entries acc).1,
        a ∈ acc.1 ∨ ∃ e ∈ entries, a = e.toHour f ∧ t ≤ e.startUtc)
      ∧ ((filterScanGo f t tmax entries acc).2 = none ↔
          (acc.2 = none ∧ ∀ e ∈ entries, ¬ e.startUtc < t))
      ∧ (∀ l2, (filterScanGo f t tmax entries acc).2 = some l2 →
          (acc.2 = some l2 ∨ ∃ e ∈ entries, e.startUtc < t ∧ l2 = e.toHour f)
          ∧ (∀ e ∈ entries, e.startUtc < t → e.startUtc ≤ l2.startUtc)
          ∧ (∀ b, acc.2 = some b → b.startUtc ≤ l2.startUtc)) := by
  intro entries
  induction entries with
  | nil =>
    intro acc
    refine ⟨fun a ha => Or.inl ha, by simp [filterScanGo], ?_⟩
    intro l2 h
    simp only [filterScanGo] at h
    exact ⟨Or.inl h, by simp, fun b hb => by rw [hb] at h; cases h; exact le_refl _⟩
  | cons e rest ih =>
    intro acc
    rcases ih (filterStep f t tmax acc e) with ⟨ihkeep, ihnone, ihsome⟩
    have hgo : filterScanGo f t tmax (e :: rest) acc
        = filterScanGo f t tmax rest (filterStep f t tmax acc e) := rfl
    have hstep1 : (filterStep f t tmax acc e).1 = acc.1
        ∨ ((filterStep f t tmax acc e).1 = acc.1 ++ [e.toHour f] ∧ t ≤ e.startUtc) := by
      unfold filterStep
      by_cases h : e.startUtc < t
      · left; rw [if_pos h]
      · rw [if_neg h]
        cases tmax with
        | none => right; exact ⟨rfl, by omega⟩
        | some tx =>
          by_cases h2 : tx < e.startUtc
          · left; simp [h2]
          · right; exact ⟨by simp [h2], by omega⟩
    have hstep2pre : e.startUtc < t →
        (filterStep f t tmax acc e).2 =
          (match acc.2 with
           | none => some (e.toHour f)
           | some l => if l.startUtc < e.startUtc then some (e.toHour f) else some l) := by
      intro h
      unfold filterStep
      rw [if_pos h]
    have hstep2post : ¬ e.startUtc < t → (filterStep f t tmax acc e).2 = acc.2 := by
      intro h
      unfold filterStep
      rw [if_neg h]
      cases tmax with
      | none => rfl
      | some tx =>
        by_cases h2 : tx < e.startUtc
        · simp [h2]
        · simp [h2]
    refine ⟨?_, ?_, ?_⟩
    · intro a ha
      rw [hgo] at ha
      rcases ihkeep a ha with hin | ⟨e2, he2, heq, hge⟩
      · rcases hstep1 with h | ⟨h, hget⟩
        · rw [h] at hin
          exact Or.inl hin
        · rw [h] at hin
          rcases List.mem_append.mp hin with hin2 | hin2
          · exact Or.inl hin2
          · rcases List.mem_singleton.mp hin2 with rfl
            exact Or.inr ⟨e, by simp, rfl, hget⟩
      · exact Or.inr ⟨e2, List.mem_cons_of_mem e he2, heq, hge⟩
    · rw [hgo, ihnone]
      by_cases hpre : e.startUtc < t
      · rw [hstep2pre hpre]
        constructor
        · intro ⟨h1, _⟩
          exfalso
          cases hacc : acc.2 with
          | none => rw [hacc] at h1; exact absurd h1 (by simp)
          | some l =>
            rw [hacc] at h1
            by_cases hrepl : l.startUtc < e.startUtc <;> simp [hrepl] at h1
        · intro ⟨_, h2⟩
          exact absurd hpre (h2 e (by simp))
      · rw [hstep2post hpre]
        constructor
        · intro ⟨h1, h2⟩
          refine ⟨h1, fun e2 he2 => ?_⟩
          rcases List.mem_cons.mp he2 with rfl | he2r
          · exact hpre
          · exact h2 e2 he2r
        · intro ⟨h1, h2⟩
          exact ⟨h1, fun e2 he2 => h2 e2 (List.mem_cons_of_mem e he2)⟩
    · intro l2 hl2
      rw [hgo] at hl2
      rcases ihsome l2 hl2 with ⟨hsrc, hmax, hdom⟩
      by_cases hpre : e.startUtc < t
      · rw [hstep2pre hpre] at hsrc hdom
        refine ⟨?_, ?_, ?_⟩
        · rcases hsrc with hs | ⟨e2, he2, hlt2, heq2⟩
          · cases hacc : acc.2 with
            | none =>
              rw [hacc] at hs
              simp only at hs
              exact Or.inr ⟨e, by simp, hpre, (Option.some.injEq _ _ ▸ hs).symm⟩
            | some l =>
              rw [hacc] at hs
              simp only at hs
              by_cases hrepl : l.startUtc < e.startUtc
              · rw [if_pos hrepl] at hs
                exact Or.inr ⟨e, by simp, hpre, (Option.some.injEq _ _ ▸ hs).symm⟩
              · rw [if_neg hrepl] at hs
                exact Or.inl hs
          · exact Or.inr ⟨e2, List.mem_cons_of_mem e he2, hlt2, heq2⟩
        · intro e2 he2 hlt2
          rcases List.mem_cons.mp he2 with rfl | he2r
          · -- show the processed head's start is dominated
            cases hacc : acc.2 with
            | none =>
              have := hdom (e2.toHour f) (by rw [hacc])
              simpa using this
            | some l =>
              by_cases hrepl : l.startUtc < e2.startUtc
              · have := hdom (e2.toHour f) (by rw [hacc]; simp [hrepl])
                simpa using this
              · have := hdom l (by rw [hacc]; simp [hrepl])
                have h2 : ¬ l.startUtc < e2.startUtc := hrepl
                omega
          · exact hmax e2 he2r hlt2
        · intro b hb
          rw [hb] at hdom
          by_cases hrepl : b.startUtc < e.startUtc
          · have hd := hdom (e.toHour f) (by simp [hrepl])
            have h2 : (ListingEntry.toHour f e).startUtc = e.startUtc := rfl
            omega
          · exact hdom b (by simp [hrepl])
      · rw [hstep2post hpre] at hsrc hdom
        refine ⟨?_, ?_, hdom⟩
        · rcases hsrc with hs | ⟨e2, he2, hlt2, heq2⟩
          · exact Or.inl hs
          · exact Or.inr ⟨e2, List.mem_cons_of_mem e he2, hlt2, heq2⟩
        · intro e2 he2 hlt2
          rcases List.mem_cons.mp he2 with rfl | he2r
          · exact absurd hlt2 hpre
          · exact hmax e2 he2r hlt2


/-- Transfer lemma for the left-boundary analysis: the filtered folder
coverage is a start-multiset permutation of `keep ++ extra`, so pre-`t`
elements of the result are exactly accounted for by `extra`. -/
theorem leftFilter_core (t : Int) (keep extra res : List AudioHour)
    (hkeepge : ∀ a ∈ keep, t ≤ a.startUtc)
    (hres : res = assignEnds ((keep ++ extra).mergeSort audioHourLe)) :
    (extra = [] → res.countP (fun a => decide (a.startUtc < t)) = 0)
    ∧ res.countP (fun a => decide (a.startUtc < t)) ≤ extra.length
    ∧ (∀ a ∈ res, a.startUtc < t → ∃ b ∈ extra, a.startUtc = b.startUtc)
    ∧ (∀ b ∈ extra, ∃ a ∈ res, a.startUtc = b.startUtc) := by
  have hperm : (res.map (fun a => a.startUtc)).Perm
      ((keep ++ extra).map (fun a => a.startUtc)) := by
    rw [hres, assignEnds_map_start]
    exact (List.mergeSort_perm (keep ++ extra) audioHourLe).map _
  have hcnt : res.countP (fun a => decide (a.startUtc < t))
      = (keep ++ extra).countP (fun a => decide (a.startUtc < t)) := by
    have h1 := List.countP_map (fun s : Int => decide (s < t))
      (fun a : AudioHour => a.startUtc) res
    have h2 := List.countP_map (fun s : Int => decide (s < t))
      (fun a : AudioHour => a.startUtc) (keep ++ extra)
    have h3 := hperm.countP_eq (fun s : Int => decide (s < t))
    exact h1.symm.trans (h3.trans h2)
  have hkcnt : keep.countP (fun a => decide (a.startUtc < t)) = 0 := by
    rw [List.countP_eq_zero]
    intro a ha
    have := hkeepge a ha
    simp only [decide_eq_true_eq]
    omega
  refine ⟨?_, ?_, ?_, ?_⟩
  · intro hext
    rw [hcnt, hext, List.append_nil, hkcnt]
  · rw [hcnt, List.countP_append, hkcnt]
    have h4 : extra.countP (fun a => decide (a.startUtc < t)) ≤ extra.length :=
      List.countP_le_length _
    omega
  · intro a ha halt
    have hmem : a.startUtc ∈ (keep ++ extra).map (fun a => a.startUtc) :=
      hperm.mem_iff.mp (List.mem_map.mpr ⟨a, ha, rfl⟩)
    rcases List.mem_map.mp hmem with ⟨b, hb, hba⟩
    rcases List.mem_append.mp hb with hbk | hbe
    · have := hkeepge b hbk
      omega
    · exact ⟨b, hbe, hba.symm⟩
  · intro b hb
    have hmem : b.startUtc ∈ res.map (fun a => a.startUtc) :=
      hperm.mem_iff.mpr (List.mem_map.mpr ⟨b, List.mem_append.mpr (Or.inr hb), rfl⟩)
    rcases List.mem_map.mp hmem with ⟨a, ha, hab⟩
    exact ⟨a, ha, hab⟩

/-- C5: with a present lower bound `t`, the folder coverage retains at most
one interval starting before `t`; any retained pre-`t` interval starts at
most six hours before `t` and dominates the start of every parsed pre-`t`
entry; and a maximal-start pre-`t` entry is retained whenever it starts
within six hours of `t`. -/
theorem C5_left_boundary (f : String) (entries : List ListingEntry)
    (t : Int) (tmax : Option Int) :
    (listAudioInFolderPure f entries (some t) tmax).countP
        (fun a => decide (a.startUtc < t)) ≤ 1
    ∧ (∀ a ∈ listAudioInFolderPure f entries (some t) tmax, a.startUtc < t →
        t - a.startUtc ≤ 21600000
          ∧ ∀ e ∈ entries, e.startUtc < t → e.startUtc ≤ a.startUtc)
    ∧ (∀ e ∈ entries, e.startUtc < t →
        (∀ e2 ∈ entries, e2.startUtc < t → e2.startUtc ≤ e.startUtc) →
        t - e.startUtc ≤ 21600000 →
        ∃ a ∈ listAudioInFolderPure f entries (some t) tmax,
          a.startUtc = e.startUtc) := by
  rcases hgo : filterScanGo f t tmax entries ([], none) with ⟨keep, left⟩
  obtain ⟨hkeep, hnone, hsome⟩ := filterScan_some_inv f t tmax entries ([], none)
  rw [hgo] at hkeep hnone hsome
  have hkeepge : ∀ a ∈ keep, t ≤ a.startUtc := by
    intro a ha
    rcases hkeep a ha with h | ⟨e, _, heq, hle⟩
    · exact absurd h (List.not_mem_nil a)
    · rw [heq]; exact hle
  cases left with
  | none =>
    have hres : listAudioInFolderPure f entries (some t) tmax
        = assignEnds ((keep ++ []).mergeSort audioHourLe) := by
      simp only [listAudioInFolderPure, filterScan, hgo, List.append_nil]
    obtain ⟨hz, hle1, hpre, hext⟩ := leftFilter_core t keep [] _ hkeepge hres
    refine ⟨?_, ?_, ?_⟩
    · have := hz rfl; omega
    · intro a ha halt
      rcases hpre a ha halt with ⟨b, hb, _⟩
      exact absurd hb (List.not_mem_nil b)
    · intro e he helt hmax hsix
      exfalso
      rcases hnone.mp rfl with ⟨_, hall⟩
      exact hall e he helt
  | some l =>
    obtain ⟨hsrc, hmaxl, _⟩ := hsome l rfl
    by_cases hinc : 0 ≤ t - l.startUtc ∧ t - l.startUtc ≤ 21600000
    · have hdec : decide (0 ≤ t - l.startUtc ∧ t - l.startUtc ≤ 21600000) = true :=
        decide_eq_true hinc
      have hres : listAudioInFolderPure f entries (some t) tmax
          = assignEnds ((keep ++ [l]).mergeSort audioHourLe) := by
        simp only [listAudioInFolderPure, filterScan, hgo, hdec, if_true]
      obtain ⟨hz, hle1, hpre, hext⟩ := leftFilter_core t keep [l] _ hkeepge hres
      refine ⟨?_, ?_, ?_⟩
      · simpa using hle1
      · intro a ha halt
        rcases hpre a ha halt with ⟨b, hb2, hba⟩
        rcases List.mem_singleton.mp hb2 with rfl
        refine ⟨by omega, ?_⟩
        intro e2 he2 helt2
        have := hmaxl e2 he2 helt2
        omega
      · intro e he helt hmax hsix
        rcases hext l (List.mem_singleton.mpr rfl) with ⟨a, ha, hal⟩
        refine ⟨a, ha, ?_⟩
        rcases hsrc with h | ⟨e2, he2, helt2, hleq⟩
        · exact Option.noConfusion h
        · have h1 : l.startUtc = e2.startUtc := by rw [hleq]; rfl
          have h2 : e2.startUtc ≤ e.startUtc := hmax e2 he2 helt2
          have h3 : e.startUtc ≤ l.startUtc := hmaxl e he helt
          omega
    · have hdec : decide (0 ≤ t - l.startUtc ∧ t - l.startUtc ≤ 21600000) = false :=
        decide_eq_false hinc
      have hres : listAudioInFolderPure f entries (some t) tmax
          = assignEnds ((keep ++ []).mergeSort audioHourLe) := by
        simp only [listAudioInFolderPure, filterScan, hgo, hdec, List.append_nil]
        rw [if_neg Bool.false_ne_true]
      obtain ⟨hz, hle1, hpre, hext⟩ := leftFilter_core t keep [] _ hkeepge hres
      refine ⟨?_, ?_, ?_⟩
      · have := hz rfl; omega
      · intro a ha halt
        rcases hpre a ha halt with ⟨b, hb2, _⟩
        exact absurd hb2 (List.not_mem_nil b)
      · intro e he helt hmax hsix
        exfalso
        rcases hsrc with h | ⟨e2, he2, helt2, hleq⟩
        · exact Option.noConfusion h
        · have h1 : l.startUtc = e2.startUtc := by rw [hleq]; rfl
          have h3 : e.startUtc ≤ l.startUtc := hmaxl e he helt
          exact hinc ⟨by omega, by omega⟩

/-- C5 counterexample: files parsed at 03:00 and 10:00 with the query range
starting at 10:00 — the pre-range file is seven hours early, so it is
dropped; the window [09:30, 10:30) starts strictly before the earliest
in-range recording and within six hours of it, yet it matches no source. -/
theorem C5_counterexample :
    listAudioInFolderPure "a" [⟨"f1", 10800000⟩, ⟨"f2", 36000000⟩]
        (some 36000000) none
      = [⟨"f2", "f2", "a", 36000000, 39600000⟩]
    ∧ minimalFilesForWindows [⟨"f2", "f2", "a", 36000000, 39600000⟩]
        [(34200000, 37800000)]
      = ([⟨34200000, 37800000, [], []⟩], 1)
    ∧ (34200000 : Int) < 36000000
    ∧ (36000000 : Int) - 34200000 ≤ 21600000 := by
  refine ⟨?_, rfl, by decide, by decide⟩
  have h1 : listAudioInFolderPure "a" [⟨"f1", 10800000⟩, ⟨"f2", 36000000⟩]
      (some 36000000) none
      = assignEnds (([⟨"f2", "f2", "a", 36000000, 39600000⟩] :
          List AudioHour).mergeSort audioHourLe) := rfl
  rw [h1, mergeSort_sorted_eq]
  · rfl
  · exact List.pairwise_singleton _ _

/-- C5 witness: a file starting one hour before the lower bound is retained
as the single left-boundary inclusion. -/
theorem C5_witness :
    (listAudioInFolderPure "a" [⟨"p", 0⟩, ⟨"q", 3600000⟩]
        (some 3600000) none).countP (fun a => decide (a.startUtc < 3600000)) ≤ 1
    ∧ ∃ a ∈ listAudioInFolderPure "a" [⟨"p", 0⟩, ⟨"q", 3600000⟩]
        (some 3600000) none, a.startUtc = 0 :=
  ⟨(C5_left_boundary "a" [⟨"p", 0⟩, ⟨"q", 3600000⟩] 3600000 none).1,
   (C5_left_boundary "a" [⟨"p", 0⟩, ⟨"q", 3600000⟩] 3600000 none).2.2
     ⟨"p", 0⟩ (by decide) (by decide) (by decide) (by decide)⟩


/-! ## C6: event windows -/

/-- Propositional form of the lexicographic event order. -/
theorem eventLe_iff (a b : Int × Int) :
    eventLe a b = true ↔ (a.1 < b.1 ∨ (a.1 = b.1 ∧ a.2 ≤ b.2)) := by
  unfold eventLe
  by_cases h : a.1 = b.1 <;> simp [h] <;> omega

theorem eventLe_total (a b : Int × Int) : eventLe a b || eventLe b a := by
  rw [Bool.or_eq_true, eventLe_iff, eventLe_iff]
  omega

theorem eventLe_trans (a b c : Int × Int)
    (h1 : eventLe a b) (h2 : eventLe b c) : eventLe a c := by
  rw [eventLe_iff] at *
  omega

theorem eventLe_antisymm : ∀ (a b : Int × Int),
    eventLe a b = true → eventLe b a = true → a = b := by
  intro ⟨a1, a2⟩ ⟨b1, b2⟩ h1 h2
  rw [eventLe_iff] at h1 h2
  simp only [Prod.mk.injEq]
  dsimp only at h1 h2
  omega

theorem mem_dedupAdjacent : ∀ (l : List (Int × Int)) (x : Int × Int),
    x ∈ dedupAdjacent l → x ∈ l
  | [], _, h => h
  | [_], _, h => h
  | a :: b :: rest, x, h => by
    simp only [dedupAdjacent] at h
    split at h
    · exact List.mem_cons_of_mem a (mem_dedupAdjacent (b :: rest) x h)
    · rcases List.mem_cons.mp h with rfl | h2
      · exact List.mem_cons_self _ _
      · exact List.mem_cons_of_mem a (mem_dedupAdjacent (b :: rest) x h2)

/-- Dropping adjacent duplicates from a list sorted by the (total,
antisymmetric) event order leaves it strictly sorted. -/
theorem dedupAdjacent_strict : ∀ (l : List (Int × Int)),
    l.Pairwise (fun a b => eventLe a b = true) →
    (dedupAdjacent l).Pairwise (fun a b => eventLe a b = true ∧ a ≠ b)
  | [], _ => List.Pairwise.nil
  | [a], _ => by simp [dedupAdjacent]
  | a :: b :: rest, h => by
    rcases List.pairwise_cons.mp h with ⟨hhead, htail⟩
    simp only [dedupAdjacent]
    split
    · exact dedupAdjacent_strict (b :: rest) htail
    · rename_i hne
      refine List.pairwise_cons.mpr ⟨?_, dedupAdjacent_strict (b :: rest) htail⟩
      intro x hx
      have hxmem : x ∈ b :: rest := mem_dedupAdjacent _ _ hx
      refine ⟨hhead x hxmem, ?_⟩
      intro hax
      subst hax
      rcases List.mem_cons.mp hxmem with h1 | h1
      · exact hne h1
      · have h2 : eventLe b a = true := (List.pairwise_cons.mp htail).1 a h1
        have h3 : eventLe a b = true := hhead b (List.mem_cons_self _ _)
        exact hne (eventLe_antisymm a b h3 h2)

/-- Every window built from a readable row has a positive span. -/
theorem parseEventRow_lt (startIdx : Nat) (endIdx durIdx : Option Nat)
    (row : List String) (w : Int × Int)
    (h : parseEventRow startIdx endIdx durIdx row = some w) : w.1 < w.2 := by
  simp only [parseEventRow] at h
  split at h
  · exact absurd h (by simp)
  · split at h
    · exact absurd h (by simp)
    · injection h with h
      subst h
      dsimp only
      split <;> omega

/-- Any successful parse is the deduplicated sort of the per-row windows. -/
theorem parseEventsFromCsv_shape (header : List String)
    (rows : List (List String)) (evs : List (Int × Int))
    (h : parseEventsFromCsv header rows = some evs) :
    ∃ startIdx endIdx durIdx,
      evs = dedupAdjacent ((rows.filterMap
        (parseEventRow startIdx endIdx durIdx)).mergeSort eventLe) := by
  simp only [parseEventsFromCsv] at h
  split at h
  · exact absurd h (by simp)
  · split at h
    · exact absurd h (by simp)
    · split at h
      · exact absurd h (by simp)
      · injection h with h
        exact ⟨_, _, _, h.symm⟩

/-- C6: every successfully parsed event table yields windows with positive
span, strictly sorted by the lexicographic `(start, end)` order with exact
duplicates removed; and on any row whose end cell parses to `v`, the window
is `(start, v)` when `v` is after the start and `(start, start + 60 s)`
otherwise — the duration column is ignored whenever the end cell parses. -/
theorem C6_event_windows :
    (∀ (header : List String) (rows : List (List String))
        (evs : List (Int × Int)),
        parseEventsFromCsv header rows = some evs →
        (∀ w ∈ evs, w.1 < w.2)
        ∧ evs.Pairwise (fun a b => eventLe a b = true ∧ a ≠ b))
    ∧ (∀ (startIdx : Nat) (endIdx durIdx : Option Nat) (row : List String)
        (s v : Int) (ei : Nat),
        ¬ row.length ≤ startIdx →
        parseIsoOrPlainUTC (row.getD startIdx "") = some s →
        endIdx = some ei → ei < row.length →
        parseIsoOrPlainUTC (row.getD ei "") = some v →
        parseEventRow startIdx endIdx durIdx row
          = some (s, if v ≤ s then s + 60000 else v)) := by
  constructor
  · intro header rows evs h
    rcases parseEventsFromCsv_shape header rows evs h with ⟨si, ei, di, hevs⟩
    subst hevs
    constructor
    · intro w hw
      have hw2 : w ∈ (rows.filterMap (parseEventRow si ei di)).mergeSort eventLe :=
        mem_dedupAdjacent _ _ hw
      have hw3 : w ∈ rows.filterMap (parseEventRow si ei di) :=
        List.mem_mergeSort.mp hw2
      rcases List.mem_filterMap.mp hw3 with ⟨row, _, hrow⟩
      exact parseEventRow_lt si ei di row w hrow
    · exact dedupAdjacent_strict _
        (@List.sorted_mergeSort (Int × Int) eventLe eventLe_trans eventLe_total _)
  · intro startIdx endIdx durIdx row s v ei hlen hs hei heilt hv
    subst hei
    simp only [parseEventRow, hs, hv, if_neg hlen, if_pos heilt]

/-- C6 counterexample: the end cell parses but is not after the start, so the
window is coerced to `start + 60 s`, ignoring the 120 s duration cell — and
the coerced span is sixty seconds, not one. -/
theorem C6_counterexample :
    parseEventsFromCsv ["start", "end", "duration"]
        [["2024-01-01T02:00:00Z", "2024-01-01T01:00:00Z", "120"]]
      = some [((1704074400000 : Int), (1704074460000 : Int))]
    ∧ (1704074460000 : Int) ≠ 1704074400000 + 120000
    ∧ (1704074460000 : Int) - 1704074400000 = 60000 := by
  refine ⟨?_, by decide, by decide⟩
  have h1 : parseEventsFromCsv ["start", "end", "duration"]
      [["2024-01-01T02:00:00Z", "2024-01-01T01:00:00Z", "120"]]
      = some (dedupAdjacent
          (([((1704074400000 : Int), (1704074460000 : Int))]).mergeSort eventLe)) := rfl
  rw [h1, mergeSort_sorted_eq]
  · rfl
  · exact List.pairwise_singleton _ _

/-- C6 witness: a one-row table parses, its window has positive span, and a
row with an end cell after the start keeps that end unchanged. -/
theorem C6_witness :
    (∀ w ∈ [((1704067200000 : Int), (1704067260000 : Int))],
        w.1 < w.2)
    ∧ parseEventRow 0 (some 1) none
        ["2024-01-01T00:00:00Z", "2024-01-01T01:00:00Z"]
      = some (1704067200000, 1704070800000) := by
  have h0 : parseEventsFromCsv ["start"] [["2024-01-01T00:00:00Z"]]
      = some [((1704067200000 : Int), (1704067260000 : Int))] := by
    have h1 : parseEventsFromCsv ["start"] [["2024-01-01T00:00:00Z"]]
        = some (dedupAdjacent
            (([((1704067200000 : Int), (1704067260000 : Int))]).mergeSort eventLe)) := rfl
    rw [h1, mergeSort_sorted_eq]
    · rfl
    · exact List.pairwise_singleton _ _
  refine ⟨fun w hw =>
    (C6_event_windows.1 ["start"] [["2024-01-01T00:00:00Z"]] _ h0).1 w hw, ?_⟩
  have h2 := C6_event_windows.2 0 (some 1) none
      ["2024-01-01T00:00:00Z", "2024-01-01T01:00:00Z"]
      1704067200000 1704070800000 1 (by decide) rfl rfl (by decide) rfl
  rw [h2]
  rfl


/-! ## C7: presence-hour windows -/

theorem intLe_trans (a b c : Int) (h1 : intLe a b) (h2 : intLe b c) :
    intLe a c := by
  simp only [intLe, decide_eq_true_eq] at *
  omega

theorem intLe_total (a b : Int) : intLe a b || intLe b a := by
  simp only [intLe, Bool.or_eq_true, decide_eq_true_eq]
  omega

/-- The `std::set` guard keeps each hour at most once. -/
theorem dedupKeepFirst_nodup (l : List Int) : (dedupKeepFirst l).Nodup := by
  suffices h : ∀ acc : List Int, acc.Nodup →
      (l.foldl (fun acc x => if x ∈ acc then acc else acc ++ [x]) acc).Nodup by
    exact h [] List.nodup_nil
  induction l with
  | nil => intro acc hacc; exact hacc
  | cons a t ih =>
    intro acc hacc
    simp only [List.foldl_cons]
    by_cases h : a ∈ acc
    · rw [if_pos h]
      exact ih acc hacc
    · rw [if_neg h]
      refine ih _ ?_
      simp [List.nodup_append, hacc, h]

/-- Any successful presence parse is empty (empty header) or the sorted
deduplication of the flagged hours. -/
theorem parsePresenceHours_shape (header : List String)
    (rows : List (List String)) (hours : List Int)
    (h : parsePresenceHoursFromCsv header rows = some hours) :
    hours = [] ∨ ∃ hs : List Int, hours = (dedupKeepFirst hs).mergeSort intLe := by
  simp only [parsePresenceHoursFromCsv] at h
  split at h
  · injection h with h
    exact Or.inl h.symm
  · split at h
    · exact absurd h (by simp)
    · split at h
      · exact absurd h (by simp)
      · injection h with h
        exact Or.inr ⟨_, h.symm⟩

/-- C7: the presence hours of any table come out strictly increasing, and the
three-row `["date", "flag"]` table keeps exactly the 00:00 and 02:00 hours,
which form two separate single-hour runs: with the only-long-runs policy off
the preview is the two windows [00:00, 01:00) and [02:00, 03:00), and with it
on both one-hour runs are dropped. -/
theorem C7_hour_windows :
    (∀ (header : List String) (rows : List (List String)) (hours : List Int),
        parsePresenceHoursFromCsv header rows = some hours →
        hours.Pairwise (fun a b => a < b))
    ∧ previewHourWindows ["date", "flag"]
        [["2024-01-01T00:00:00Z", "1"], ["2024-01-01T01:00:00Z", "0"],
         ["2024-01-01T02:00:00Z", "1"]] false
      = some [((1704067200000 : Int), (1704070800000 : Int)),
              (1704074400000, 1704078000000)]
    ∧ previewHourWindows ["date", "flag"]
        [["2024-01-01T00:00:00Z", "1"], ["2024-01-01T01:00:00Z", "0"],
         ["2024-01-01T02:00:00Z", "1"]] true
      = some [] := by
  have h1 : parsePresenceHoursFromCsv ["date", "flag"]
      [["2024-01-01T00:00:00Z", "1"], ["2024-01-01T01:00:00Z", "0"],
       ["2024-01-01T02:00:00Z", "1"]]
      = some (([(1704067200000 : Int), 1704074400000]).mergeSort intLe) := rfl
  have h2 : parsePresenceHoursFromCsv ["date", "flag"]
      [["2024-01-01T00:00:00Z", "1"], ["2024-01-01T01:00:00Z", "0"],
       ["2024-01-01T02:00:00Z", "1"]]
      = some [(1704067200000 : Int), 1704074400000] := by
    rw [h1, mergeSort_sorted_eq]
    decide
  refine ⟨?_, ?_, ?_⟩
  · intro header rows hours h
    rcases parsePresenceHours_shape header rows hours h with rfl | ⟨hs, rfl⟩
    · exact List.Pairwise.nil
    · have hnd : ((dedupKeepFirst hs).mergeSort intLe).Nodup :=
        ((List.mergeSort_perm (dedupKeepFirst hs) intLe).nodup_iff).mpr
          (dedupKeepFirst_nodup hs)
      have hsorted := @List.sorted_mergeSort Int intLe intLe_trans intLe_total
        (dedupKeepFirst hs)
      refine (hsorted.and hnd).imp ?_
      intro a b hab
      rcases hab with ⟨hle, hne⟩
      simp only [intLe, decide_eq_true_eq] at hle
      omega
  · simp only [previewHourWindows, h2]
    rfl
  · simp only [previewHourWindows, h2]
    rfl

/-- C7 witness: the scenario's presence hours are strictly increasing. -/
theorem C7_witness :
    List.Pairwise (fun a b => a < b) [(1704067200000 : Int), 1704074400000] := by
  have h1 : parsePresenceHoursFromCsv ["date", "flag"]
      [["2024-01-01T00:00:00Z", "1"], ["2024-01-01T01:00:00Z", "0"],
       ["2024-01-01T02:00:00Z", "1"]]
      = some (([(1704067200000 : Int), 1704074400000]).mergeSort intLe) := rfl
  have h2 : parsePresenceHoursFromCsv ["date", "flag"]
      [["2024-01-01T00:00:00Z", "1"], ["2024-01-01T01:00:00Z", "0"],
       ["2024-01-01T02:00:00Z", "1"]]
      = some [(1704067200000 : Int), 1704074400000] := by
    rw [h1, mergeSort_sorted_eq]
    decide
  exact C7_hour_windows.1 ["date", "flag"]
    [["2024-01-01T00:00:00Z", "1"], ["2024-01-01T01:00:00Z", "0"],
     ["2024-01-01T02:00:00Z", "1"]] _ h2

end sanctsound
